import Mathlib

/-!
# Verification of the TTS segmentation engine and playback controller

Shallow embedding of the repository's core modules:

* `src/segmentation/japanese.ts` — `preprocess`, `splitSentences`,
  `splitBullets`, `chunkByLength`, `mergeShortChunks`, `segmentJapanese`;
* `src/features/player/components/PlaybackHeader.tsx` — `toChunkBoundaries`;
* `src/player/queue.ts` — the `PlayerQueue` state machine (the variant with
  boundary/offset tracking, whose line numbers the spec refers to).

JavaScript strings are modelled as `List Char`; all concrete inputs use BMP
characters, for which JS UTF-16 lengths coincide with code-point counts.
Regular expressions are modelled by explicit scanning functions mirroring the
semantics of the specific patterns in the source.
-/

namespace TTS

/-! ## Character classes (JS semantics) -/

/-- JS `\s` (also the character set stripped by `String.prototype.trim`):
whitespace plus line terminators. -/
def isJsSpace (c : Char) : Bool :=
  c == ' ' || c == '\t' || c == '\n' || c == '\u000B' || c == '\u000C' ||
  c == '\r' || c == ' ' || c == ' ' ||
  c == ' ' || c == ' ' || c == ' ' || c == ' ' ||
  c == ' ' || c == ' ' || c == ' ' || c == ' ' ||
  c == ' ' || c == ' ' || c == ' ' ||
  c == ' ' || c == ' ' || c == ' ' || c == ' ' ||
  c == '　' || c == '﻿'

/-- Zero-width characters removed by `preprocess`
(regex `[​-‍﻿]`). -/
def isZeroWidth (c : Char) : Bool :=
  c == '​' || c == '‌' || c == '‍' || c == '﻿'

/-- Regex `[\t\f\v\r]` — collapsed to a space by `preprocess`. -/
def isTabLike (c : Char) : Bool :=
  c == '\t' || c == '\u000C' || c == '\u000B' || c == '\r'

/-- Regex `[━─‐‑–—―]` — dash-like
characters collapsed to `-` by `preprocess`. -/
def isDashLike (c : Char) : Bool :=
  c == '━' || c == '─' || c == '‐' || c == '‑' ||
  c == '–' || c == '—' || c == '―'

/-- Sentence-terminal punctuation `[。!！?？]` of `splitSentences`. -/
def isTerminal (c : Char) : Bool :=
  c == '。' || c == '!' || c == '！' || c == '?' || c == '？'

/-- Trailing closers `[」』】)]` of `splitSentences`. -/
def isCloser (c : Char) : Bool :=
  c == '」' || c == '』' || c == '】' || c == ')'

/-! ## JS `trim` and its properties -/

/-- JS `String.prototype.trim`: strip `isJsSpace` characters from both ends. -/
def trim (l : List Char) : List Char :=
  ((l.dropWhile isJsSpace).reverse.dropWhile isJsSpace).reverse

/-- A list that neither starts nor ends with whitespace. -/
def noWsEnds (l : List Char) : Bool :=
  (match l.head? with
   | none => true
   | some c => !(isJsSpace c)) &&
  (match l.getLast? with
   | none => true
   | some c => !(isJsSpace c))

theorem length_dropWhile_le (p : Char → Bool) (l : List Char) :
    (l.dropWhile p).length ≤ l.length :=
  (List.dropWhile_sublist (l := l) (p := p)).length_le

theorem getLast?_cons_ne {α : Type _} {a : α} {l : List α} (h : l ≠ []) :
    (a :: l).getLast? = l.getLast? := by
  rcases l with _ | ⟨b, m⟩
  · exact absurd rfl h
  · exact List.getLast?_cons_cons

theorem head?_dropWhile_not {p : Char → Bool} (l : List Char) :
    ∀ c, (l.dropWhile p).head? = some c → p c = false := by
  induction l with
  | nil => intro c h; simp [List.dropWhile] at h
  | cons a as ih =>
    intro c h
    by_cases hp : p a
    · rw [List.dropWhile_cons_of_pos hp] at h; exact ih c h
    · rw [List.dropWhile_cons_of_neg hp] at h
      simp at h
      subst h
      simpa using hp

theorem getLast?_dropWhile {p : Char → Bool} (l : List Char) :
    l.dropWhile p ≠ [] → (l.dropWhile p).getLast? = l.getLast? := by
  induction l with
  | nil => intro h; simp [List.dropWhile] at h
  | cons a as ih =>
    intro h
    by_cases hp : p a
    · rw [List.dropWhile_cons_of_pos hp] at h ⊢
      have has : as ≠ [] := by
        intro he; rw [he] at h; simp [List.dropWhile] at h
      rw [ih h, getLast?_cons_ne has]
    · rw [List.dropWhile_cons_of_neg hp]

theorem dropWhile_eq_self_of_head {p : Char → Bool} (l : List Char)
    (h : ∀ c, l.head? = some c → p c = false) : l.dropWhile p = l := by
  cases l with
  | nil => simp
  | cons a as =>
    have : p a = false := h a rfl
    simp [List.dropWhile, this]

theorem trim_noWsEnds (l : List Char) : noWsEnds (trim l) = true := by
  rcases hte : trim l with _ | ⟨c, cs⟩
  · simp [noWsEnds]
  · rw [← hte]
    have htne : trim l ≠ [] := by rw [hte]; exact List.cons_ne_nil _ _
    have hdne : (l.dropWhile isJsSpace).reverse.dropWhile isJsSpace ≠ [] := by
      intro he
      apply htne
      unfold trim
      rw [he]
      rfl
    unfold noWsEnds
    apply Bool.and_eq_true_iff.mpr
    constructor
    · have h1 : (trim l).head? = (l.dropWhile isJsSpace).head? := by
        unfold trim
        rw [List.head?_reverse, getLast?_dropWhile _ hdne, List.getLast?_reverse]
      rcases hh : (trim l).head? with _ | c0
      · simp
      · have hm : (l.dropWhile isJsSpace).head? = some c0 := by rw [← h1, hh]
        have := head?_dropWhile_not (p := isJsSpace) l c0 hm
        simp [this]
    · have h2 : (trim l).getLast? =
          ((l.dropWhile isJsSpace).reverse.dropWhile isJsSpace).head? := by
        unfold trim
        rw [List.getLast?_reverse]
      rcases hg : (trim l).getLast? with _ | c1
      · simp
      · have hm : ((l.dropWhile isJsSpace).reverse.dropWhile isJsSpace).head? =
            some c1 := by rw [← h2, hg]
        have := head?_dropWhile_not (p := isJsSpace) _ c1 hm
        simp [this]

theorem trim_eq_self {l : List Char} (h : noWsEnds l = true) : trim l = l := by
  unfold noWsEnds at h
  rcases Bool.and_eq_true_iff.mp h with ⟨h1, h2⟩
  unfold trim
  have hd : l.dropWhile isJsSpace = l := by
    apply dropWhile_eq_self_of_head
    intro c hc
    rw [hc] at h1
    simpa using h1
  rw [hd]
  have hr : l.reverse.dropWhile isJsSpace = l.reverse := by
    apply dropWhile_eq_self_of_head
    intro c hc
    rw [List.head?_reverse] at hc
    rw [hc] at h2
    simpa using h2
  rw [hr, List.reverse_reverse]

theorem trim_idem (l : List Char) : trim (trim l) = trim l :=
  trim_eq_self (trim_noWsEnds l)

theorem trim_length_le (l : List Char) : (trim l).length ≤ l.length := by
  unfold trim
  calc ((l.dropWhile isJsSpace).reverse.dropWhile isJsSpace).reverse.length
      = ((l.dropWhile isJsSpace).reverse.dropWhile isJsSpace).length :=
        List.length_reverse _
    _ ≤ (l.dropWhile isJsSpace).reverse.length := length_dropWhile_le _ _
    _ = (l.dropWhile isJsSpace).length := List.length_reverse _
    _ ≤ l.length := length_dropWhile_le _ _

theorem noWsEnds_join_sp {a b : List Char} (ha : a ≠ []) (hb : b ≠ [])
    (h1 : noWsEnds a = true) (h2 : noWsEnds b = true) :
    noWsEnds (a ++ ' ' :: b) = true := by
  unfold noWsEnds at *
  rcases Bool.and_eq_true_iff.mp h1 with ⟨ha1, _⟩
  rcases Bool.and_eq_true_iff.mp h2 with ⟨_, hb2⟩
  apply Bool.and_eq_true_iff.mpr
  constructor
  · rcases a with _ | ⟨x, xs⟩
    · exact absurd rfl ha
    · simpa using ha1
  · have : (a ++ ' ' :: b).getLast? = b.getLast? := by
      rw [List.getLast?_append_of_ne_nil _ (List.cons_ne_nil _ _),
        getLast?_cons_ne hb]
    rw [this]
    exact hb2

theorem trim_join_sp {a b : List Char} (ha : a ≠ []) (hb : b ≠ [])
    (h1 : noWsEnds a = true) (h2 : noWsEnds b = true) :
    trim (a ++ ' ' :: b) = a ++ ' ' :: b :=
  trim_eq_self (noWsEnds_join_sp ha hb h1 h2)


/-! ## `preprocess` (src/segmentation/japanese.ts lines 7-20)

Each regex replacement pass is modelled by an explicit scanning function on
`List Char` with the exact semantics of the pattern on code points. -/

/-- Pass for regex dash-run collapsing (`/[...dashes...]+/g` to `-`):
a maximal run of dash-like characters becomes a single ASCII hyphen.
Structural recursion on a fuel bound; every step consumes at least one
character, so `l.length + 1` fuel always suffices. -/
def collapseDashesF : Nat → List Char → List Char
  | _, [] => []
  | 0, l => l
  | fuel + 1, c :: rest =>
    if isDashLike c then '-' :: collapseDashesF fuel (rest.dropWhile isDashLike)
    else c :: collapseDashesF fuel rest

def collapseDashes (l : List Char) : List Char := collapseDashesF (l.length + 1) l

/-- `/[%％]/g` expanded to a spelled-out form with surrounding spaces. -/
def expandPercent (l : List Char) : List Char :=
  l.flatMap (fun c => if c == '%' || c == '％' then " パーセント ".toList else [c])

/-- Global, non-overlapping, left-to-right substring replacement: the model of
`String.prototype.replace` with a fixed (non-empty) literal pattern. -/
def replaceSubF (pat rep : List Char) : Nat → List Char → List Char
  | _, [] => []
  | 0, l => l
  | fuel + 1, c :: rest =>
    if pat ≠ [] ∧ pat.isPrefixOf (c :: rest) then
      rep ++ replaceSubF pat rep fuel ((c :: rest).drop pat.length)
    else c :: replaceSubF pat rep fuel rest

def replaceSub (pat rep l : List Char) : List Char :=
  replaceSubF pat rep (l.length + 1) l

/-- Index of the last newline, at position 1 or later, inside the maximal
whitespace prefix of `l` (the greedy backtracking of `/\s+\n/`). -/
def lastNlInRun (l : List Char) : Option Nat :=
  let run := l.takeWhile isJsSpace
  ((List.range run.length).filter fun j => decide (1 ≤ j) && (run.getD j ' ' == '\n')).getLast?

/-- `/\s+\n/g` replaced by a single newline. -/
def collapseSpaceNlF : Nat → List Char → List Char
  | _, [] => []
  | 0, l => l
  | fuel + 1, c :: rest =>
    match lastNlInRun (c :: rest) with
    | some j => '\n' :: collapseSpaceNlF fuel ((c :: rest).drop (j + 1))
    | none => c :: collapseSpaceNlF fuel rest

def collapseSpaceNl (l : List Char) : List Char := collapseSpaceNlF (l.length + 1) l

/-- `/\n{3,}/g` replaced by exactly two newlines.  The matched run has
length `1 + k` where `k` counts the newlines following the head, so the scan
resumes after dropping `k` characters of the tail. -/
def collapseNlF : Nat → List Char → List Char
  | _, [] => []
  | 0, l => l
  | fuel + 1, c :: rest =>
    if c = '\n' then
      if 3 ≤ 1 + (rest.takeWhile (fun d => d == '\n')).length then
        '\n' :: '\n' ::
          collapseNlF fuel (rest.drop (rest.takeWhile (fun d => d == '\n')).length)
      else c :: collapseNlF fuel rest
    else c :: collapseNlF fuel rest

def collapseNl (l : List Char) : List Char := collapseNlF (l.length + 1) l

/-- `preprocess` from src/segmentation/japanese.ts: normalization pipeline. -/
def preprocess (text : List Char) : List Char :=
  if text.isEmpty then [] else
  trim (collapseNl (collapseSpaceNl (
    replaceSub "(株)".toList " かぶしきがいしゃ ".toList (
    replaceSub "No.".toList "ナンバー ".toList (
    expandPercent (
    collapseDashes (
    (text.filter (fun c => !isZeroWidth c)).map
      (fun c => if isTabLike c then ' ' else if c == '\u00A0' then ' ' else c))))))))

/-! ## Paragraph and block splitting (src/segmentation/japanese.ts) -/

/-- `normalized.split(/\n{2,}/)`: split on maximal runs of two or more
newlines; `acc` holds the current piece reversed. -/
def splitParasF : Nat → List Char → List Char → List (List Char)
  | _, acc, [] => [acc.reverse]
  | 0, acc, l => [acc.reverse ++ l]
  | fuel + 1, acc, c :: rest =>
    if c = '\n' ∧ rest.head? = some '\n' then
      acc.reverse ::
        splitParasF fuel [] (rest.drop (rest.takeWhile (fun d => d == '\n')).length)
    else splitParasF fuel (c :: acc) rest

def splitParas (l : List Char) : List (List Char) := splitParasF (l.length + 1) [] l

/-- `text.split(/\n/)`. -/
def splitLinesGo (acc : List Char) : List Char → List (List Char)
  | [] => [acc.reverse]
  | c :: rest =>
    if c = '\n' then acc.reverse :: splitLinesGo [] rest
    else splitLinesGo (c :: acc) rest

def splitLines (l : List Char) : List (List Char) := splitLinesGo [] l

/-- The bullet/numbered-list line test
`/^(?:\s*[-*・]|\s*\d+[\).]|\s*\([0-9]+\)\s*)/.test(line)`. -/
def isBulletLine (l : List Char) : Bool :=
  match l.dropWhile isJsSpace with
  | [] => false
  | c :: rest =>
    if c == '-' || c == '*' || c == '・' then true
    else if c.isDigit then
      match rest.dropWhile Char.isDigit with
      | ')' :: _ => true
      | '.' :: _ => true
      | _ => false
    else if c == '(' then
      let ds := rest.takeWhile Char.isDigit
      if ds.isEmpty then false
      else match rest.drop ds.length with
        | ')' :: _ => true
        | _ => false
    else false

/-- `buf.join(" ").trim()`. -/
def joinBufTrim (buf : List (List Char)) : List Char :=
  trim (List.intercalate [' '] buf)

/-- The line loop of `splitBullets`: bullet lines become their own blocks and
flush the buffer; blank lines flush the buffer; other lines accumulate. -/
def splitBulletsGo (buf : List (List Char)) : List (List Char) → List (List Char)
  | [] => if buf.isEmpty then [] else [joinBufTrim buf]
  | line :: rest =>
    if isBulletLine line then
      (if buf.isEmpty then [] else [joinBufTrim buf]) ++
        (trim line :: splitBulletsGo [] rest)
    else if (trim line).isEmpty then
      (if buf.isEmpty then [] else [joinBufTrim buf]) ++ splitBulletsGo [] rest
    else splitBulletsGo (buf ++ [trim line]) rest

/-- `splitBullets` from src/segmentation/japanese.ts. -/
def splitBullets (text : List Char) : List (List Char) :=
  splitBulletsGo [] (splitLines text)

/-! ## Sentence splitting (src/segmentation/japanese.ts lines 22-31) -/

/-- One match of `([^。!！?？]+[。!！?？]?[」』】)]?)` starting at the head of
`l` (head known non-terminal): the maximal non-terminal run, an optional
terminal mark, an optional closer; returns the match and the remainder. -/
def takeSentence (l : List Char) : List Char × List Char :=
  let nonterm := l.takeWhile (fun d => !(isTerminal d))
  match l.drop nonterm.length with
  | [] => (nonterm, [])
  | t :: r =>
    if isTerminal t then
      match r with
      | [] => (nonterm ++ [t], [])
      | k :: r2 =>
        if isCloser k then (nonterm ++ [t, k], r2) else (nonterm ++ [t], r)
    else (nonterm, t :: r)

theorem takeSentence_snd_le (c : Char) (rest : List Char)
    (h : isTerminal c = false) :
    (takeSentence (c :: rest)).2.length ≤ rest.length := by
  unfold takeSentence
  have hnt : (c :: rest).takeWhile (fun d => !(isTerminal d)) =
      c :: rest.takeWhile (fun d => !(isTerminal d)) := by
    rw [List.takeWhile_cons_of_pos]
    simp [h]
  rw [hnt]
  simp only [List.length_cons, List.drop_succ_cons]
  have hk : (rest.takeWhile (fun d => !(isTerminal d))).length ≤ rest.length :=
    (List.takeWhile_sublist _).length_le
  have hdrop := List.length_drop
    ((rest.takeWhile (fun d => !(isTerminal d))).length) rest
  rcases hd : rest.drop ((rest.takeWhile (fun d => !(isTerminal d))).length)
    with _ | ⟨t, r⟩
  · simp
  · have hr : r.length + 1 ≤ rest.length := by
      rw [hd] at hdrop
      simp only [List.length_cons] at hdrop
      omega
    split
    · rename_i heq
      exact absurd heq (by simp)
    · rename_i t2 r2 heq
      injection heq with ht1 ht2
      subst ht1
      subst ht2
      split
      · split
        · simp
        · split
          · simp only [List.length_cons] at hr ⊢
            omega
          · simp only [List.length_cons] at hr ⊢
            omega
      · simp only [List.length_cons] at hr ⊢
        omega

/-- The `exec` loop of `splitSentences`: characters that cannot start a match
(terminal marks) are skipped; each match yields one raw sentence.  Every step
consumes at least one character (see `takeSentence_snd_le`), so fuel
`l.length + 1` suffices. -/
def splitSentencesF : Nat → List Char → List (List Char)
  | _, [] => []
  | 0, _ => []
  | fuel + 1, c :: rest =>
    if isTerminal c then splitSentencesF fuel rest
    else (takeSentence (c :: rest)).1 ::
      splitSentencesF fuel (takeSentence (c :: rest)).2

/-- `splitSentences`: trimmed non-empty matches, or the trimmed block when
there is no match. -/
def splitSentences (block : List Char) : List (List Char) :=
  let out := ((splitSentencesF (block.length + 1) block).map trim).filter
    (fun s => !s.isEmpty)
  if out.isEmpty then [trim block] else out

/-! ## Length-bounded accumulation and short-chunk merging -/

def MAX_LEN : Nat := 260
def MIN_LEN : Nat := 120

/-- The `forEach` accumulator loop of `chunkByLength`. -/
def chunkAccum : List Char → List (List Char) → List (List Char)
  | current, [] => if current.isEmpty then [] else [current]
  | current, s :: rest =>
    let t := trim s
    if t.isEmpty then chunkAccum current rest
    else if current.isEmpty then chunkAccum t rest
    else if current.length + 1 + t.length ≤ MAX_LEN then
      chunkAccum (trim (current ++ ' ' :: t)) rest
    else current :: chunkAccum t rest

/-- `chunkByLength` from src/segmentation/japanese.ts lines 60-79. -/
def chunkByLength (sentences : List (List Char)) : List (List Char) :=
  if sentences.isEmpty then [] else chunkAccum [] sentences

/-- The loop of `mergeShortChunks` once the first kept chunk seeds `merged`. -/
def mergeAccum : List Char → List (List Char) → List (List Char)
  | prev, [] => [prev]
  | prev, c :: rest =>
    let t := trim c
    if t.isEmpty then mergeAccum prev rest
    else if prev.length < MIN_LEN ∧ prev.length + 1 + t.length ≤ MAX_LEN then
      mergeAccum (trim (prev ++ ' ' :: t)) rest
    else prev :: mergeAccum t rest

/-- Leading part of `mergeShortChunks`: skip empty-after-trim chunks until the
first kept chunk. -/
def mergeShortChunksGo : List (List Char) → List (List Char)
  | [] => []
  | c :: rest =>
    let t := trim c
    if t.isEmpty then mergeShortChunksGo rest else mergeAccum t rest

/-- `mergeShortChunks` from src/segmentation/japanese.ts lines 81-99. -/
def mergeShortChunks (chunks : List (List Char)) : List (List Char) :=
  if chunks.isEmpty then [] else mergeShortChunksGo chunks

/-- `segmentJapanese` from src/segmentation/japanese.ts lines 101-119. -/
def segmentJapanese (raw : List Char) : List (List Char) :=
  if raw.isEmpty then [] else
  let normalized := preprocess raw
  if normalized.isEmpty then [] else
  (splitParas normalized).flatMap (fun para =>
    (splitBullets para).flatMap (fun block =>
      mergeShortChunks (chunkByLength (splitSentences block))))

/-! ## Universal properties of the accumulation passes -/

/-- Total character count of a chunk list. -/
def sumLen (cs : List (List Char)) : Nat := (cs.map List.length).sum

/-- The sentences (or chunks) that survive trimming: the elements actually
consumed by `chunkByLength` / `mergeShortChunks`. -/
def kept (ss : List (List Char)) : List (List Char) :=
  (ss.map trim).filter (fun t => !t.isEmpty)

theorem sumLen_nil : sumLen [] = 0 := rfl

theorem sumLen_cons (c : List Char) (cs : List (List Char)) :
    sumLen (c :: cs) = c.length + sumLen cs := by
  simp [sumLen]

theorem kept_cons_empty {s : List Char} (h : (trim s).isEmpty = true)
    (ss : List (List Char)) : kept (s :: ss) = kept ss := by
  simp [kept, h]

theorem kept_cons_nonempty {s : List Char} (h : (trim s).isEmpty = false)
    (ss : List (List Char)) : kept (s :: ss) = trim s :: kept ss := by
  simp [kept, h]

/-- Every chunk produced by the `chunkByLength` accumulator is non-empty and
whitespace-trimmed, provided the running chunk is. -/
theorem chunkAccum_out (ss : List (List Char)) :
    ∀ current : List Char,
      (current = [] ∨ (current ≠ [] ∧ noWsEnds current = true)) →
      ∀ c ∈ chunkAccum current ss, c ≠ [] ∧ noWsEnds c = true := by
  induction ss with
  | nil =>
    intro current hcur c hc
    rcases hcur with hcur | hcur
    · subst hcur
      simp [chunkAccum] at hc
    · rw [chunkAccum, if_neg (by simpa [List.isEmpty_iff] using hcur.1)] at hc
      simp at hc
      subst hc
      exact hcur
  | cons s rest ih =>
    intro current hcur c hc
    rw [chunkAccum] at hc
    by_cases ht : (trim s).isEmpty
    · rw [if_pos ht] at hc
      exact ih current hcur c hc
    · rw [if_neg ht] at hc
      have htne : trim s ≠ [] := by simpa [List.isEmpty_iff] using ht
      rcases hcur with hcur | hcur
      · rw [if_pos (by simpa [List.isEmpty_iff] using hcur)] at hc
        exact ih (trim s) (Or.inr ⟨htne, trim_noWsEnds s⟩) c hc
      · rw [if_neg (by simpa [List.isEmpty_iff] using hcur.1)] at hc
        by_cases hfit : current.length + 1 + (trim s).length ≤ MAX_LEN
        · rw [if_pos hfit] at hc
          have hj : trim (current ++ ' ' :: trim s) = current ++ ' ' :: trim s :=
            trim_join_sp hcur.1 htne hcur.2 (trim_noWsEnds s)
          refine ih _ (Or.inr ?_) c hc
          rw [hj]
          constructor
          · simp [hcur.1]
          · exact hj ▸ trim_noWsEnds (current ++ ' ' :: trim s)
        · rw [if_neg hfit] at hc
          rcases List.mem_cons.mp hc with hc | hc
          · subst hc
            exact hcur
          · exact ih (trim s) (Or.inr ⟨htne, trim_noWsEnds s⟩) c hc

/-- Character conservation through the `chunkByLength` accumulator: total
output characters plus output chunk count equals running-chunk characters
plus one, plus kept-sentence characters plus kept-sentence count (each join
inserts exactly one space). -/
theorem chunkAccum_sum (ss : List (List Char)) :
    ∀ current : List Char, current ≠ [] → noWsEnds current = true →
      sumLen (chunkAccum current ss) + (chunkAccum current ss).length
        = current.length + 1 + sumLen (kept ss) + (kept ss).length := by
  induction ss with
  | nil =>
    intro current hne _
    rw [chunkAccum, if_neg (by simpa [List.isEmpty_iff] using hne)]
    simp [sumLen, kept]
  | cons s rest ih =>
    intro current hne hnws
    rw [chunkAccum]
    by_cases ht : (trim s).isEmpty
    · rw [if_pos ht, kept_cons_empty ht]
      exact ih current hne hnws
    · have htne : trim s ≠ [] := by simpa [List.isEmpty_iff] using ht
      rw [if_neg ht, if_neg (by simpa [List.isEmpty_iff] using hne),
        kept_cons_nonempty (by simpa using ht)]
      by_cases hfit : current.length + 1 + (trim s).length ≤ MAX_LEN
      · rw [if_pos hfit]
        have hj : trim (current ++ ' ' :: trim s) = current ++ ' ' :: trim s :=
          trim_join_sp hne htne hnws (trim_noWsEnds s)
        have hjne : current ++ ' ' :: trim s ≠ [] := by simp [hne]
        have := ih (trim (current ++ ' ' :: trim s))
          (by rw [hj]; exact hjne)
          (by rw [hj]; exact hj ▸ trim_noWsEnds (current ++ ' ' :: trim s))
        rw [this, hj]
        simp [sumLen_cons]
        omega
      · rw [if_neg hfit]
        have := ih (trim s) htne (trim_noWsEnds s)
        simp only [sumLen_cons, List.length_cons]
        omega

/-- Seeded version: starting from the empty running chunk. -/
theorem chunkAccum_sum_nil (ss : List (List Char)) :
    sumLen (chunkAccum [] ss) + (chunkAccum [] ss).length
      = sumLen (kept ss) + (kept ss).length := by
  induction ss with
  | nil => simp [chunkAccum, sumLen, kept]
  | cons s rest ih =>
    by_cases ht : (trim s).isEmpty
    · have hstep : chunkAccum [] (s :: rest) = chunkAccum [] rest := by
        rw [chunkAccum, if_pos ht]
      rw [hstep, kept_cons_empty ht]
      exact ih
    · have htne : trim s ≠ [] := by simpa [List.isEmpty_iff] using ht
      have hstep : chunkAccum [] (s :: rest) = chunkAccum (trim s) rest := by
        rw [chunkAccum, if_neg ht]
        simp
      rw [hstep, kept_cons_nonempty (by simpa using ht)]
      have := chunkAccum_sum rest (trim s) htne (trim_noWsEnds s)
      simp only [sumLen_cons, List.length_cons]
      omega

/-- Every chunk produced by the `mergeShortChunks` loop is non-empty and
whitespace-trimmed, provided the running chunk is. -/
theorem mergeAccum_out (cs : List (List Char)) :
    ∀ prev : List Char, prev ≠ [] → noWsEnds prev = true →
      ∀ c ∈ mergeAccum prev cs, c ≠ [] ∧ noWsEnds c = true := by
  induction cs with
  | nil =>
    intro prev hne hnws c hc
    rw [mergeAccum] at hc
    simp at hc
    subst hc
    exact ⟨hne, hnws⟩
  | cons d rest ih =>
    intro prev hne hnws c hc
    rw [mergeAccum] at hc
    by_cases ht : (trim d).isEmpty
    · rw [if_pos ht] at hc
      exact ih prev hne hnws c hc
    · have htne : trim d ≠ [] := by simpa [List.isEmpty_iff] using ht
      rw [if_neg ht] at hc
      by_cases hfit : prev.length < MIN_LEN ∧ prev.length + 1 + (trim d).length ≤ MAX_LEN
      · rw [if_pos hfit] at hc
        have hj : trim (prev ++ ' ' :: trim d) = prev ++ ' ' :: trim d :=
          trim_join_sp hne htne hnws (trim_noWsEnds d)
        refine ih _ ?_ ?_ c hc
        · rw [hj]; simp [hne]
        · rw [hj]; exact hj ▸ trim_noWsEnds (prev ++ ' ' :: trim d)
      · rw [if_neg hfit] at hc
        rcases List.mem_cons.mp hc with hc | hc
        · subst hc; exact ⟨hne, hnws⟩
        · exact ih (trim d) htne (trim_noWsEnds d) c hc

/-- Character conservation through the `mergeShortChunks` loop. -/
theorem mergeAccum_sum (cs : List (List Char)) :
    ∀ prev : List Char, prev ≠ [] → noWsEnds prev = true →
      sumLen (mergeAccum prev cs) + (mergeAccum prev cs).length
        = prev.length + 1 + sumLen (kept cs) + (kept cs).length := by
  induction cs with
  | nil =>
    intro prev _ _
    rw [mergeAccum]
    simp [sumLen, kept]
  | cons d rest ih =>
    intro prev hne hnws
    rw [mergeAccum]
    by_cases ht : (trim d).isEmpty
    · rw [if_pos ht, kept_cons_empty ht]
      exact ih prev hne hnws
    · have htne : trim d ≠ [] := by simpa [List.isEmpty_iff] using ht
      rw [if_neg ht, kept_cons_nonempty (by simpa using ht)]
      by_cases hfit : prev.length < MIN_LEN ∧ prev.length + 1 + (trim d).length ≤ MAX_LEN
      · rw [if_pos hfit]
        have hj : trim (prev ++ ' ' :: trim d) = prev ++ ' ' :: trim d :=
          trim_join_sp hne htne hnws (trim_noWsEnds d)
        have := ih (trim (prev ++ ' ' :: trim d))
          (by rw [hj]; simp [hne])
          (by rw [hj]; exact hj ▸ trim_noWsEnds (prev ++ ' ' :: trim d))
        rw [this, hj]
        simp [sumLen_cons]
        omega
      · rw [if_neg hfit]
        have := ih (trim d) htne (trim_noWsEnds d)
        simp only [sumLen_cons, List.length_cons]
        omega

theorem mergeShortChunksGo_out (cs : List (List Char)) :
    ∀ c ∈ mergeShortChunksGo cs, c ≠ [] ∧ noWsEnds c = true := by
  induction cs with
  | nil => intro c hc; simp [mergeShortChunksGo] at hc
  | cons d rest ih =>
    intro c hc
    rw [mergeShortChunksGo] at hc
    by_cases ht : (trim d).isEmpty
    · rw [if_pos ht] at hc
      exact ih c hc
    · have htne : trim d ≠ [] := by simpa [List.isEmpty_iff] using ht
      rw [if_neg ht] at hc
      exact mergeAccum_out rest (trim d) htne (trim_noWsEnds d) c hc

theorem mergeShortChunksGo_sum (cs : List (List Char)) :
    sumLen (mergeShortChunksGo cs) + (mergeShortChunksGo cs).length
      = sumLen (kept cs) + (kept cs).length := by
  induction cs with
  | nil => simp [mergeShortChunksGo, sumLen, kept]
  | cons d rest ih =>
    rw [mergeShortChunksGo]
    by_cases ht : (trim d).isEmpty
    · rw [if_pos ht, kept_cons_empty ht]
      exact ih
    · have htne : trim d ≠ [] := by simpa [List.isEmpty_iff] using ht
      rw [if_neg ht, kept_cons_nonempty (by simpa using ht)]
      have := mergeAccum_sum rest (trim d) htne (trim_noWsEnds d)
      simp only [sumLen_cons, List.length_cons]
      omega

/-- On a list of non-empty trimmed chunks, `kept` is the identity. -/
theorem kept_eq_self (cs : List (List Char))
    (h : ∀ c ∈ cs, c ≠ [] ∧ noWsEnds c = true) : kept cs = cs := by
  induction cs with
  | nil => simp [kept]
  | cons d rest ih =>
    have hd := h d (List.mem_cons_self d rest)
    have hne : (trim d).isEmpty = false := by
      rw [trim_eq_self hd.2]
      simpa [List.isEmpty_iff] using hd.1
    rw [kept_cons_nonempty hne, trim_eq_self hd.2,
      ih (fun c hc => h c (List.mem_cons_of_mem d hc))]
/-- Per-block composition of the two passes: conservation. -/
theorem perBlock_sum (ss : List (List Char)) :
    sumLen (mergeShortChunks (chunkByLength ss)) +
      (mergeShortChunks (chunkByLength ss)).length
    = sumLen (kept ss) + (kept ss).length := by
  by_cases hss : ss.isEmpty
  · have h1 : chunkByLength ss = [] := by rw [chunkByLength, if_pos hss]
    have h2 : ss = [] := by simpa [List.isEmpty_iff] using hss
    rw [h1]
    subst h2
    simp [mergeShortChunks, sumLen, kept]
  · have h1 : chunkByLength ss = chunkAccum [] ss := by
      rw [chunkByLength, if_neg hss]
    rw [h1]
    by_cases hcb : (chunkAccum [] ss).isEmpty
    · have h2 : chunkAccum [] ss = [] := by simpa [List.isEmpty_iff] using hcb
      have h3 := chunkAccum_sum_nil ss
      rw [h2] at h3 ⊢
      simp [sumLen] at h3
      simp [mergeShortChunks, sumLen]
      omega
    · have h2 : mergeShortChunks (chunkAccum [] ss) =
          mergeShortChunksGo (chunkAccum [] ss) := by
        rw [mergeShortChunks, if_neg hcb]
      rw [h2, mergeShortChunksGo_sum,
        kept_eq_self _ (chunkAccum_out ss [] (Or.inl rfl)),
        chunkAccum_sum_nil]

/-- Per-block composition of the two passes: every chunk non-empty and
trimmed. -/
theorem perBlock_out (ss : List (List Char)) :
    ∀ c ∈ mergeShortChunks (chunkByLength ss), c ≠ [] ∧ noWsEnds c = true := by
  intro c hc
  rw [mergeShortChunks] at hc
  by_cases hcb : (chunkByLength ss).isEmpty
  · rw [if_pos hcb] at hc
    simp at hc
  · rw [if_neg hcb] at hc
    exact mergeShortChunksGo_out _ c hc

/-- Chunks out of the `chunkByLength` accumulator are bounded by `MAX_LEN`,
except the running chunk itself and single trimmed input sentences. -/
theorem chunkAccum_mem (ss : List (List Char)) :
    ∀ current c, c ∈ chunkAccum current ss →
      c.length ≤ MAX_LEN ∨ c = current ∨ ∃ s ∈ ss, c = trim s := by
  induction ss with
  | nil =>
    intro current c hc
    rw [chunkAccum] at hc
    by_cases h : current.isEmpty
    · rw [if_pos h] at hc; simp at hc
    · rw [if_neg h] at hc
      simp at hc
      exact Or.inr (Or.inl hc)
  | cons t rest ih =>
    intro current c hc
    rw [chunkAccum] at hc
    by_cases ht : (trim t).isEmpty
    · rw [if_pos ht] at hc
      rcases ih current c hc with h | h | ⟨s, hs, he⟩
      · exact Or.inl h
      · exact Or.inr (Or.inl h)
      · exact Or.inr (Or.inr ⟨s, List.mem_cons_of_mem t hs, he⟩)
    · rw [if_neg ht] at hc
      by_cases hcu : current.isEmpty
      · rw [if_pos hcu] at hc
        rcases ih (trim t) c hc with h | h | ⟨s, hs, he⟩
        · exact Or.inl h
        · exact Or.inr (Or.inr ⟨t, List.mem_cons_self t rest, h⟩)
        · exact Or.inr (Or.inr ⟨s, List.mem_cons_of_mem t hs, he⟩)
      · rw [if_neg hcu] at hc
        by_cases hfit : current.length + 1 + (trim t).length ≤ MAX_LEN
        · rw [if_pos hfit] at hc
          rcases ih _ c hc with h | h | ⟨s, hs, he⟩
          · exact Or.inl h
          · refine Or.inl ?_
            subst h
            calc (trim (current ++ ' ' :: trim t)).length
                ≤ (current ++ ' ' :: trim t).length := trim_length_le _
              _ = current.length + 1 + (trim t).length := by simp; omega
              _ ≤ MAX_LEN := hfit
          · exact Or.inr (Or.inr ⟨s, List.mem_cons_of_mem t hs, he⟩)
        · rw [if_neg hfit] at hc
          rcases List.mem_cons.mp hc with hc | hc
          · exact Or.inr (Or.inl hc)
          · rcases ih (trim t) c hc with h | h | ⟨s, hs, he⟩
            · exact Or.inl h
            · exact Or.inr (Or.inr ⟨t, List.mem_cons_self t rest, h⟩)
            · exact Or.inr (Or.inr ⟨s, List.mem_cons_of_mem t hs, he⟩)

/-- Chunks out of the `mergeShortChunks` loop: a merge never exceeds
`MAX_LEN`; anything else is the running chunk or a trimmed input chunk. -/
theorem mergeAccum_mem (cs : List (List Char)) :
    ∀ prev c, c ∈ mergeAccum prev cs →
      c.length ≤ MAX_LEN ∨ c = prev ∨ ∃ d ∈ cs, c = trim d := by
  induction cs with
  | nil =>
    intro prev c hc
    rw [mergeAccum] at hc
    simp at hc
    exact Or.inr (Or.inl hc)
  | cons d rest ih =>
    intro prev c hc
    rw [mergeAccum] at hc
    by_cases ht : (trim d).isEmpty
    · rw [if_pos ht] at hc
      rcases ih prev c hc with h | h | ⟨e, he, hee⟩
      · exact Or.inl h
      · exact Or.inr (Or.inl h)
      · exact Or.inr (Or.inr ⟨e, List.mem_cons_of_mem d he, hee⟩)
    · rw [if_neg ht] at hc
      by_cases hfit : prev.length < MIN_LEN ∧ prev.length + 1 + (trim d).length ≤ MAX_LEN
      · rw [if_pos hfit] at hc
        rcases ih _ c hc with h | h | ⟨e, he, hee⟩
        · exact Or.inl h
        · refine Or.inl ?_
          subst h
          calc (trim (prev ++ ' ' :: trim d)).length
              ≤ (prev ++ ' ' :: trim d).length := trim_length_le _
            _ = prev.length + 1 + (trim d).length := by simp; omega
            _ ≤ MAX_LEN := hfit.2
        · exact Or.inr (Or.inr ⟨e, List.mem_cons_of_mem d he, hee⟩)
      · rw [if_neg hfit] at hc
        rcases List.mem_cons.mp hc with hc | hc
        · exact Or.inr (Or.inl hc)
        · rcases ih (trim d) c hc with h | h | ⟨e, he, hee⟩
          · exact Or.inl h
          · exact Or.inr (Or.inr ⟨d, List.mem_cons_self d rest, h⟩)
          · exact Or.inr (Or.inr ⟨e, List.mem_cons_of_mem d he, hee⟩)

/-- The merge pass never produces an over-length chunk by merging: every
output chunk fits `MAX_LEN` or is the trim of some input chunk passed
through unmerged. -/
theorem mergeShortChunks_mem (cs : List (List Char)) :
    ∀ c ∈ mergeShortChunks cs, c.length ≤ MAX_LEN ∨ ∃ d ∈ cs, c = trim d := by
  intro c hc
  rw [mergeShortChunks] at hc
  by_cases hcs : cs.isEmpty
  · rw [if_pos hcs] at hc; simp at hc
  · rw [if_neg hcs] at hc
    clear hcs
    induction cs with
    | nil => simp [mergeShortChunksGo] at hc
    | cons d rest ih =>
      rw [mergeShortChunksGo] at hc
      by_cases ht : (trim d).isEmpty
      · rw [if_pos ht] at hc
        rcases ih hc with h | ⟨e, he, hee⟩
        · exact Or.inl h
        · exact Or.inr ⟨e, List.mem_cons_of_mem d he, hee⟩
      · rw [if_neg ht] at hc
        rcases mergeAccum_mem rest (trim d) c hc with h | h | ⟨e, he, hee⟩
        · exact Or.inl h
        · exact Or.inr ⟨d, List.mem_cons_self d rest, h ▸ rfl⟩
        · exact Or.inr ⟨e, List.mem_cons_of_mem d he, hee⟩

/-- Per-block bound: every chunk fits `MAX_LEN` or is a single trimmed
sentence of the block. -/
theorem perBlock_bound (ss : List (List Char)) :
    ∀ c ∈ mergeShortChunks (chunkByLength ss),
      c.length ≤ MAX_LEN ∨ ∃ s ∈ ss, c = trim s := by
  intro c hc
  rcases mergeShortChunks_mem _ c hc with h | ⟨d, hd, he⟩
  · exact Or.inl h
  · have hd2 : d ∈ chunkAccum [] ss := by
      rw [chunkByLength] at hd
      by_cases hss : ss.isEmpty
      · rw [if_pos hss] at hd; simp at hd
      · rwa [if_neg hss] at hd
    rcases chunkAccum_mem ss [] d hd2 with h | h | ⟨s, hs, hse⟩
    · refine Or.inl ?_
      subst he
      exact le_trans (trim_length_le d) h
    · subst h
      refine Or.inl ?_
      subst he
      simp [trim]
    · refine Or.inr ⟨s, hs, ?_⟩
      rw [he, hse, trim_idem]
/-! ## Lifting to `segmentJapanese` -/

theorem sumLen_append (a b : List (List Char)) :
    sumLen (a ++ b) = sumLen a + sumLen b := by
  simp [sumLen]

theorem sumLen_add_length_flatMap {α : Type} (l : List α)
    (f : α → List (List Char)) :
    sumLen (l.flatMap f) + (l.flatMap f).length
      = (l.map (fun a => sumLen (f a) + (f a).length)).sum := by
  induction l with
  | nil => simp [sumLen]
  | cons a rest ih =>
    rw [List.flatMap_cons, List.map_cons, List.sum_cons, sumLen_append,
      List.length_append]
    omega

/-- Kept-character budget of one block: trimmed-sentence characters plus
sentence count. -/
def blockBudget (block : List Char) : Nat :=
  sumLen (kept (splitSentences block)) + (kept (splitSentences block)).length

/-- Budget of one paragraph: sum of its blocks' budgets. -/
def paraBudget (para : List Char) : Nat :=
  ((splitBullets para).map blockBudget).sum

/-- Budget of the whole normalized text. -/
def totalBudget (normalized : List Char) : Nat :=
  ((splitParas normalized).map paraBudget).sum

theorem segmentJapanese_nonempty (raw : List Char) :
    ∀ c ∈ segmentJapanese raw, c ≠ [] := by
  intro c hc
  rw [segmentJapanese] at hc
  by_cases h1 : raw.isEmpty
  · rw [if_pos h1] at hc; simp at hc
  · rw [if_neg h1] at hc
    by_cases h2 : (preprocess raw).isEmpty
    · rw [if_pos h2] at hc; simp at hc
    · rw [if_neg h2] at hc
      rcases List.mem_flatMap.mp hc with ⟨para, _, hc2⟩
      rcases List.mem_flatMap.mp hc2 with ⟨block, _, hc3⟩
      exact (perBlock_out (splitSentences block) c hc3).1

theorem segmentJapanese_sum (raw : List Char) :
    sumLen (segmentJapanese raw) + (segmentJapanese raw).length
      = totalBudget (preprocess raw) := by
  rw [segmentJapanese]
  by_cases h1 : raw.isEmpty
  · rw [if_pos h1]
    have hr : raw = [] := by simpa [List.isEmpty_iff] using h1
    subst hr
    decide
  · rw [if_neg h1]
    by_cases h2 : (preprocess raw).isEmpty
    · rw [if_pos h2]
      have hp : preprocess raw = [] := by simpa [List.isEmpty_iff] using h2
      rw [hp]
      decide
    · rw [if_neg h2]
      rw [sumLen_add_length_flatMap]
      unfold totalBudget
      congr 1
      apply List.map_congr_left
      intro para _
      rw [sumLen_add_length_flatMap]
      unfold paraBudget
      congr 1
      apply List.map_congr_left
      intro block _
      rw [perBlock_sum]
      rfl

theorem segmentJapanese_bound (raw : List Char) :
    ∀ c ∈ segmentJapanese raw,
      c.length ≤ MAX_LEN ∨
        ∃ para ∈ splitParas (preprocess raw), ∃ block ∈ splitBullets para,
          ∃ s ∈ splitSentences block, c = trim s := by
  intro c hc
  rw [segmentJapanese] at hc
  by_cases h1 : raw.isEmpty
  · rw [if_pos h1] at hc; simp at hc
  · rw [if_neg h1] at hc
    by_cases h2 : (preprocess raw).isEmpty
    · rw [if_pos h2] at hc; simp at hc
    · rw [if_neg h2] at hc
      rcases List.mem_flatMap.mp hc with ⟨para, hpara, hc2⟩
      rcases List.mem_flatMap.mp hc2 with ⟨block, hblock, hc3⟩
      rcases perBlock_bound (splitSentences block) c hc3 with h | ⟨sent, hs, he⟩
      · exact Or.inl h
      · exact Or.inr ⟨para, hpara, block, hblock, sent, hs, he⟩

/-! ## Spec-side reading for claim C3

`Modelled from the spec:` the claim compares the total chunk length with
"the length of the normalized input with interior whitespace collapsed";
this definition follows the spec's words (maximal whitespace runs replaced
by one space), and is compared against the source-derived pipeline. -/

def collapseWsRuns : List Char → List Char
  | [] => []
  | c :: rest =>
    match rest with
    | [] => [if isJsSpace c then ' ' else c]
    | d :: _ =>
      if isJsSpace c ∧ isJsSpace d then collapseWsRuns rest
      else (if isJsSpace c then ' ' else c) :: collapseWsRuns rest

/-- Length of the normalized text with interior whitespace runs collapsed —
the reference quantity named by the spec sentence behind claim C3. -/
def specCollapsedLength (raw : List Char) : Nat :=
  (collapseWsRuns (preprocess raw)).length
/-! ## Claim theorems: segmentation (C3, C6) -/

/-- Claim C3, counterexample.  On input `あ。い。` (no whitespace at all, and
`preprocess` is the identity on it), the segmenter outputs one chunk
`あ。 い。` of length 5 — the joining space is invented — while the
normalized input with interior whitespace collapsed has length 4.  The claim
"the sum of chunk lengths equals the length of the normalized input with
interior whitespace collapsed" is therefore false at this input. -/
theorem claim_C3_counterexample :
    sumLen (segmentJapanese "あ。い。".toList) = 5 ∧
    specCollapsedLength "あ。い。".toList = 4 ∧
    preprocess "あ。い。".toList = "あ。い。".toList ∧
    (∀ c ∈ "あ。い。".toList, isJsSpace c = false) ∧
    sumLen (segmentJapanese "あ。い。".toList) ≠
      specCollapsedLength "あ。い。".toList := by
  decide

/-- Claim C3, amended.  Every chunk emitted by `segmentJapanese` is a
non-empty string, and the precise conservation law is: total output
characters plus chunk count equals, per block, total trimmed-sentence
characters plus sentence count (`totalBudget`) — each merge of a sentence or
chunk into a running chunk inserts exactly one joining space, and whitespace
separating blocks and paragraphs is dropped, so no other characters are
invented or lost. -/
theorem claim_C3 :
    (∀ raw : List Char, ∀ c ∈ segmentJapanese raw, c ≠ []) ∧
    (∀ raw : List Char,
      sumLen (segmentJapanese raw) + (segmentJapanese raw).length
        = totalBudget (preprocess raw)) :=
  ⟨segmentJapanese_nonempty, segmentJapanese_sum⟩

/-- Witness for C3 (amended): instantiated at the concrete input `あ。い。`
whose single output chunk is `あ。 い。`. -/
theorem claim_C3_witness :
    "あ。 い。".toList ≠ [] ∧
    sumLen (segmentJapanese "あ。い。".toList) +
        (segmentJapanese "あ。い。".toList).length
      = totalBudget (preprocess "あ。い。".toList) :=
  ⟨claim_C3.1 "あ。い。".toList "あ。 い。".toList (by decide),
   claim_C3.2 "あ。い。".toList⟩

/-- Claim C6.  Every chunk produced by the segmenter has length at most
`MAX_LEN` (260) unless it is a single trimmed sentence kept whole under the
non-splitting policy; and the short-chunk merge pass never merges chunks
into one exceeding the bound — any over-length output of the pass is the
trim of an input chunk passed through unmerged. -/
theorem claim_C6 :
    (∀ raw : List Char, ∀ c ∈ segmentJapanese raw,
      c.length ≤ MAX_LEN ∨
        ∃ para ∈ splitParas (preprocess raw), ∃ block ∈ splitBullets para,
          ∃ s ∈ splitSentences block, c = trim s) ∧
    (∀ cs : List (List Char), ∀ c ∈ mergeShortChunks cs,
      c.length ≤ MAX_LEN ∨ ∃ d ∈ cs, c = trim d) :=
  ⟨segmentJapanese_bound, mergeShortChunks_mem⟩

/-- Witness for C6: instantiated at concrete inputs. -/
theorem claim_C6_witness :
    (("あ。 い。".toList).length ≤ MAX_LEN ∨
      ∃ para ∈ splitParas (preprocess "あ。い。".toList),
        ∃ block ∈ splitBullets para, ∃ s ∈ splitSentences block,
          "あ。 い。".toList = trim s) ∧
    (("ab".toList).length ≤ MAX_LEN ∨
      ∃ d ∈ ["ab".toList], "ab".toList = trim d) :=
  ⟨claim_C6.1 "あ。い。".toList "あ。 い。".toList (by decide),
   claim_C6.2 ["ab".toList] "ab".toList (by decide)⟩
/-! ## Boundary index (`toChunkBoundaries`,
src/features/player/components/PlaybackHeader.tsx lines 330-339) -/

/-- `ChunkBoundary = {start, end}` (the `end` field is named `endPos`,
`end` being reserved in Lean). -/
structure ChunkBoundary where
  start : Nat
  endPos : Nat
deriving DecidableEq

/-- The cursor loop of `toChunkBoundaries`: for each chunk push
`{start: cursor, end: cursor + length}` and advance the cursor. -/
def toChunkBoundariesGo (cursor : Nat) :
    List (List Char) → List ChunkBoundary × Nat
  | [] => ([], cursor)
  | c :: rest =>
    let r := toChunkBoundariesGo (cursor + c.length) rest
    (⟨cursor, cursor + c.length⟩ :: r.1, r.2)

/-- `toChunkBoundaries`: the boundary table and the total character count. -/
def toChunkBoundaries (chunks : List (List Char)) : List ChunkBoundary × Nat :=
  toChunkBoundariesGo 0 chunks

theorem toChunkBoundariesGo_length (chunks : List (List Char)) :
    ∀ cursor, (toChunkBoundariesGo cursor chunks).1.length = chunks.length := by
  induction chunks with
  | nil => intro cursor; rfl
  | cons c rest ih =>
    intro cursor
    simp [toChunkBoundariesGo, ih]

theorem toChunkBoundariesGo_snd (chunks : List (List Char)) :
    ∀ cursor, (toChunkBoundariesGo cursor chunks).2 = cursor + sumLen chunks := by
  induction chunks with
  | nil => intro cursor; simp [toChunkBoundariesGo, sumLen]
  | cons c rest ih =>
    intro cursor
    simp [toChunkBoundariesGo, ih, sumLen_cons]
    omega

theorem sumLen_take_succ (chunks : List (List Char)) :
    ∀ i, i < chunks.length →
      sumLen (chunks.take (i + 1))
        = sumLen (chunks.take i) + (chunks.getD i []).length := by
  induction chunks with
  | nil => intro i hi; simp at hi
  | cons c rest ih =>
    intro i hi
    cases i with
    | zero => simp [sumLen, List.take]
    | succ j =>
      simp only [List.take_succ_cons, sumLen_cons, List.getD_cons_succ]
      rw [ih j (by simpa using hi)]
      omega

theorem toChunkBoundariesGo_getD (chunks : List (List Char)) :
    ∀ cursor i, i < chunks.length →
      (toChunkBoundariesGo cursor chunks).1.getD i ⟨0, 0⟩
        = ⟨cursor + sumLen (chunks.take i),
           cursor + sumLen (chunks.take (i + 1))⟩ := by
  induction chunks with
  | nil => intro cursor i hi; simp at hi
  | cons c rest ih =>
    intro cursor i hi
    cases i with
    | zero => simp [toChunkBoundariesGo, sumLen, List.take]
    | succ j =>
      have hj : j < rest.length := by simpa using hi
      simp only [toChunkBoundariesGo, List.getD_cons_succ, List.take_succ_cons,
        sumLen_cons]
      rw [ih (cursor + c.length) j hj]
      congr 1 <;> omega
theorem toChunkBoundariesGo_total (chunks : List (List Char)) :
    ∀ cursor,
      (toChunkBoundariesGo cursor chunks).2
        = (match (toChunkBoundariesGo cursor chunks).1.getLast? with
           | some b => b.endPos
           | none => cursor) := by
  induction chunks with
  | nil => intro cursor; rfl
  | cons c rest ih =>
    intro cursor
    by_cases hr : rest = []
    · subst hr
      rfl
    · have hne : (toChunkBoundariesGo (cursor + c.length) rest).1 ≠ [] := by
        intro he
        have := toChunkBoundariesGo_length rest (cursor + c.length)
        rw [he] at this
        exact hr (List.length_eq_zero.mp this.symm)
      simp only [toChunkBoundariesGo]
      rw [getLast?_cons_ne hne]
      have hih := ih (cursor + c.length)
      rcases hl : (toChunkBoundariesGo (cursor + c.length) rest).1.getLast?
        with _ | b
      · exact absurd (List.getLast?_eq_none_iff.mp hl) hne
      · rw [hl] at hih
        exact hih

/-- Claim C7.  For every chunk sequence the boundary table satisfies:
the first boundary starts at 0; each boundary's `end` equals the next
boundary's `start`; each boundary's width equals the chunk's length; and
the returned total equals the last boundary's `end`, or 0 for an empty
sequence. -/
theorem claim_C7 (chunks : List (List Char)) :
    ((toChunkBoundaries chunks).1 ≠ [] →
      (((toChunkBoundaries chunks).1.headD ⟨0, 0⟩).start = 0)) ∧
    (∀ i, i + 1 < (toChunkBoundaries chunks).1.length →
      ((toChunkBoundaries chunks).1.getD i ⟨0, 0⟩).endPos
        = ((toChunkBoundaries chunks).1.getD (i + 1) ⟨0, 0⟩).start) ∧
    (∀ i, i < (toChunkBoundaries chunks).1.length →
      ((toChunkBoundaries chunks).1.getD i ⟨0, 0⟩).endPos
          - ((toChunkBoundaries chunks).1.getD i ⟨0, 0⟩).start
        = (chunks.getD i []).length) ∧
    ((toChunkBoundaries chunks).2
      = (match (toChunkBoundaries chunks).1.getLast? with
         | some b => b.endPos
         | none => 0)) := by
  have hlen := toChunkBoundariesGo_length chunks 0
  unfold toChunkBoundaries
  refine ⟨?_, ?_, ?_, ?_⟩
  · intro hne
    have h0 : 0 < chunks.length := by
      rcases chunks with _ | ⟨c, rest⟩
      · simp [toChunkBoundariesGo] at hne
      · simp
    have hg := toChunkBoundariesGo_getD chunks 0 0 h0
    rcases hb : (toChunkBoundariesGo 0 chunks).1 with _ | ⟨b, bs⟩
    · exact absurd hb hne
    · rw [hb] at hg
      rw [List.getD_cons_zero] at hg
      show b.start = 0
      rw [hg]
      simp [sumLen]
  · intro i hi
    rw [hlen] at hi
    rw [toChunkBoundariesGo_getD chunks 0 i (by omega),
      toChunkBoundariesGo_getD chunks 0 (i + 1) hi]
  · intro i hi
    rw [hlen] at hi
    rw [toChunkBoundariesGo_getD chunks 0 i hi]
    have := sumLen_take_succ chunks i hi
    simp only
    omega
  · exact toChunkBoundariesGo_total chunks 0

/-- Witness for C7: instantiated at the two-chunk sequence `["ab", "c"]`. -/
theorem claim_C7_witness :
    ((toChunkBoundaries ["ab".toList, "c".toList]).1.getD 0 ⟨0, 0⟩).endPos
      = ((toChunkBoundaries ["ab".toList, "c".toList]).1.getD 1 ⟨0, 0⟩).start ∧
    ((toChunkBoundaries ["ab".toList, "c".toList]).1.getD 0 ⟨0, 0⟩).endPos
        - ((toChunkBoundaries ["ab".toList, "c".toList]).1.getD 0 ⟨0, 0⟩).start
      = (["ab".toList, "c".toList].getD 0 []).length ∧
    ((toChunkBoundaries ["ab".toList, "c".toList]).1.headD ⟨0, 0⟩).start = 0 :=
  ⟨(claim_C7 ["ab".toList, "c".toList]).2.1 0 (by decide),
   (claim_C7 ["ab".toList, "c".toList]).2.2.1 0 (by decide),
   (claim_C7 ["ab".toList, "c".toList]).1 (by decide)⟩
/-! ## The `PlayerQueue` state machine (src/player/queue.ts lines 179-447)

The controller is modelled as explicit state passing over a `World` that
holds the queue state together with the observable effects: the log of
adapter `speak` calls, the registry of created utterances with their
callback-attachment flags, and the emitted listener notifications.
Utterance callbacks close over the controller, so delivering an event to an
utterance whose handlers are still attached runs the common handler body
against the current state; a detached utterance ignores the event.  Voices
are identified by opaque numbers; a JS `voice` patch value may be absent
(`none`), `null` (`some none`), or a voice (`some (some v)`), matching the
nullish-coalescing merge in the source. -/

inductive PlayerState where
  | playing
  | paused
  | stopped
deriving DecidableEq

structure InternalSettings where
  rate : ℚ
  volume : ℚ
  voice : Option Nat
deriving DecidableEq

structure SpeakPatch where
  rate : Option ℚ := none
  volume : Option ℚ := none
  voice : Option (Option Nat) := none
deriving DecidableEq

/-- One adapter `speak(text, settings, callbacks)` invocation. -/
structure SpeakCall where
  id : Nat
  text : List Char
  settings : InternalSettings
deriving DecidableEq

/-- A created utterance handle with its callback-attachment flags (all three
are set by `speak` and cleared by `restartCurrent`). -/
structure UttRec where
  id : Nat
  onendAttached : Bool
  onerrorAttached : Bool
  onboundaryAttached : Bool
deriving DecidableEq

/-- A listener notification (`onIndex`, `onState`, `onError`, `onProgress`). -/
inductive Notice where
  | indexN (i total : Nat)
  | stateN (s : PlayerState)
  | errorN
  | progressN (i total chunkLength charOffset : Nat) (boundarySupported : Bool)
deriving DecidableEq

/-- The private fields of `PlayerQueue`. -/
structure QueueState where
  chunks : List (List Char)
  settings : InternalSettings
  index : Nat
  state : PlayerState
  utterance : Option Nat
  retries : Nat
  resumeFromOffset : Nat
  spokenOffsetBase : Nat
  currentChunkLength : Nat
  boundarySupported : Bool
  lastKnownCharOffset : Nat
deriving DecidableEq

/-- Queue state plus observable effects. -/
structure World where
  q : QueueState
  speaks : List SpeakCall
  utts : List UttRec
  nextId : Nat
  notices : List Notice
deriving DecidableEq

/-- `emitProgress`. -/
def emitProgress (w : World) : World :=
  {w with notices := w.notices ++
    [.progressN w.q.index w.q.chunks.length w.q.currentChunkLength
      w.q.lastKnownCharOffset w.q.boundarySupported]}

/-- `emitIndex` (which also calls `emitProgress`). -/
def emitIndex (w : World) : World :=
  emitProgress {w with notices := w.notices ++ [.indexN w.q.index w.q.chunks.length]}

/-- `emitState`. -/
def emitState (w : World) : World :=
  {w with notices := w.notices ++ [.stateN w.q.state]}

/-- `emitError`. -/
def emitError (w : World) : World :=
  {w with notices := w.notices ++ [.errorN]}

/-- `resetOffsets` (src/player/queue.ts lines 418-423). -/
def resetOffsetsQ (q : QueueState) : QueueState :=
  { q with
    resumeFromOffset := 0
    spokenOffsetBase := 0
    currentChunkLength := (q.chunks.getD q.index []).length
    lastKnownCharOffset := 0 }

/-- `stop` (lines 285-292): cancel, state to stopped, emit, reset offsets,
drop the utterance handle, reset retries. -/
def stop (w : World) : World :=
  let w1 := emitState {w with q := {w.q with state := .stopped}}
  {w1 with q := {(resetOffsetsQ w1.q) with utterance := none, retries := 0}}

/-- The adapter `speak` call: a fresh utterance with all callbacks attached
becomes the current one. -/
def speakNew (text : List Char) (w : World) : World :=
  {w with
    speaks := w.speaks ++ [⟨w.nextId, text, w.q.settings⟩],
    utts := w.utts ++ [⟨w.nextId, true, true, true⟩],
    nextId := w.nextId + 1,
    q := {w.q with utterance := some w.nextId}}

/-- `speakCurrent` (lines 348-393), structurally recursive on fuel: the
auto-advance chain moves `index` strictly forward, so `chunks.length + 1`
fuel always suffices.  The empty-remainder branch inlines `autoAdvance`
(lines 395-403). -/
def speakCurrentF : Nat → World → World
  | 0, w => w
  | fuel + 1, w =>
    if w.q.chunks.isEmpty then stop w
    else
      let chunk := w.q.chunks.getD w.q.index []
      let offset := min w.q.resumeFromOffset chunk.length
      let w1 : World := { w with q := { w.q with
        spokenOffsetBase := offset
        currentChunkLength := chunk.length
        lastKnownCharOffset := offset
        resumeFromOffset := 0 } }
      if (chunk.drop offset).isEmpty then
        if w1.q.index + 1 < w1.q.chunks.length then
          speakCurrentF fuel
            {w1 with q := {w1.q with index := w1.q.index + 1, retries := 0}}
        else stop w1
      else speakNew (chunk.drop offset) (emitProgress (emitIndex w1))

def speakCurrent (w : World) : World := speakCurrentF (w.q.chunks.length + 1) w

/-- `autoAdvance` (lines 395-403), as entered from the event handlers. -/
def autoAdvance (w : World) : World :=
  if w.q.index + 1 < w.q.chunks.length then
    speakCurrent {w with q := {w.q with index := w.q.index + 1, retries := 0}}
  else stop w

/-- `restartCurrent(offset)` (lines 405-416): detach the outgoing
utterance's callbacks, cancel, reset retries, clamp the resume offset, and
resynthesize. -/
def restartCurrent (offset : Nat) (w : World) : World :=
  if w.q.chunks.isEmpty then w
  else
    let w1 := match w.q.utterance with
      | some uid => {w with utts := w.utts.map (fun (u : UttRec) =>
          if u.id = uid then
            { u with
              onendAttached := false
              onerrorAttached := false
              onboundaryAttached := false }
          else u)}
      | none => w
    let w2 := { w1 with q := { w1.q with
      retries := 0
      resumeFromOffset := max 0 (min offset w1.q.currentChunkLength) } }
    speakCurrent w2

/-- `Math.max(0, Math.min(startIndex, this.chunks.length - 1))` on JS
numbers. -/
def clampIdx (i : Int) (len : Nat) : Nat :=
  (max 0 (min i ((len : Int) - 1))).toNat

/-- `setChunks` (lines 227-232). -/
def setChunks (cs : List (List Char)) (w : World) : World :=
  let w1 := { w with q := { w.q with
    chunks := cs
    index := min w.q.index (max (cs.length - 1) 0) } }
  emitIndex {w1 with q := resetOffsetsQ w1.q}

/-- `updateSettings(patch)` (lines 234-254): merge via nullish coalescing,
then restart on a voice change (from offset 0) or a rate change (from the
last known offset when boundaries were observed, else 0). -/
def updateSettings (p : SpeakPatch) (w : World) : World :=
  let prevRate := w.q.settings.rate
  let prevVoice := w.q.settings.voice
  let merged : InternalSettings :=
    { rate := p.rate.getD prevRate,
      volume := p.volume.getD w.q.settings.volume,
      voice := match p.voice with
        | some (some v) => some v
        | _ => prevVoice }
  let w1 := {w with q := {w.q with settings := merged}}
  let rateChanged : Bool := match p.rate with
    | none => false
    | some r => decide (r ≠ prevRate)
  let voiceChanged : Bool := match p.voice with
    | none => false
    | some pv => decide (pv ≠ prevVoice)
  if voiceChanged ∧ w.q.state = .playing then restartCurrent 0 w1
  else if rateChanged ∧ w.q.state = .playing then
    restartCurrent
      (if w.q.boundarySupported then w.q.lastKnownCharOffset else 0) w1
  else w1

/-- `pause` (lines 271-276). -/
def pause (w : World) : World :=
  if w.q.state ≠ .playing then w
  else emitState {w with q := {w.q with state := .paused}}

/-- `resume` (lines 278-283). -/
def resume (w : World) : World :=
  if w.q.state ≠ .paused then w
  else emitState {w with q := {w.q with state := .playing}}

/-- `play(startIndex)` (lines 256-269). -/
def play (si : Option Int) (w : World) : World :=
  let w1 := match si with
    | some i =>
      let q1 := {w.q with index := clampIdx i w.q.chunks.length}
      {w with q := resetOffsetsQ q1}
    | none => w
  if w1.q.state = .paused then resume w1
  else if w1.q.state = .playing then w1
  else speakCurrent (emitState {w1 with q := {w1.q with state := .playing}})

/-- `next` (lines 294-304). -/
def next (w : World) : World :=
  if w.q.chunks.isEmpty then w
  else
    let w1 := { w with
      q := resetOffsetsQ
        {w.q with index := min (w.q.index + 1) (w.q.chunks.length - 1)} }
    if w1.q.state = .playing then speakCurrent w1 else emitIndex w1

/-- `prev` (lines 306-316); `Math.max(index - 1, 0)` is subtraction on
naturals. -/
def prev (w : World) : World :=
  if w.q.chunks.isEmpty then w
  else
    let w1 := { w with
      q := resetOffsetsQ {w.q with index := w.q.index - 1} }
    if w1.q.state = .playing then speakCurrent w1 else emitIndex w1

/-- `seek(index, {play})` (lines 318-334). -/
def seek (i : Int) (doPlay : Bool) (w : World) : World :=
  if w.q.chunks.isEmpty then w
  else
    let w1 := {w with q := {w.q with index := clampIdx i w.q.chunks.length}}
    let w2 := {w1 with q := resetOffsetsQ {w1.q with utterance := none}}
    if doPlay then
      speakCurrent (emitState {w2 with q := {w2.q with state := .playing}})
    else
      if w2.q.state = .playing then emitIndex (pause w2) else emitIndex w2

/-- `getIndex`. -/
def getIndex (w : World) : Nat := w.q.index

/-- `getState`. -/
def getState (w : World) : PlayerState := w.q.state

/-- `getCharOffset`. -/
def getCharOffset (w : World) : Nat := w.q.lastKnownCharOffset

/-! ### Event delivery

The host delivers an utterance's events at arbitrary later times; a
delivered event runs the corresponding handler body iff that utterance's
handler is still attached. -/

def findUtt (w : World) (uid : Nat) : Option UttRec :=
  w.utts.find? (fun u => u.id == uid)

/-- Body of the `onend` callback (lines 376-380). -/
def onendBody (w : World) : World :=
  if w.q.state ≠ .playing then w
  else autoAdvance {w with q := resetOffsetsQ w.q}

/-- Body of the `onerror` callback (lines 381-391). -/
def onerrorBody (w : World) : World :=
  if w.q.retries < 2 then
    speakCurrent { w with q := { w.q with
      retries := w.q.retries + 1
      resumeFromOffset := w.q.lastKnownCharOffset } }
  else
    let w1 := emitError w
    autoAdvance {w1 with q := resetOffsetsQ w1.q}

/-- Body of the `onboundary` callback (lines 370-375); `charIndex` is the
event's reported offset within the text passed to `speak`. -/
def onboundaryBody (charIndex : Nat) (w : World) : World :=
  emitProgress { w with q := { w.q with
    boundarySupported := true
    lastKnownCharOffset :=
      min (w.q.spokenOffsetBase + charIndex) w.q.currentChunkLength } }

def deliverEnd (uid : Nat) (w : World) : World :=
  match findUtt w uid with
  | some u => if u.onendAttached then onendBody w else w
  | none => w

def deliverError (uid : Nat) (w : World) : World :=
  match findUtt w uid with
  | some u => if u.onerrorAttached then onerrorBody w else w
  | none => w

def deliverBoundary (uid : Nat) (charIndex : Nat) (w : World) : World :=
  match findUtt w uid with
  | some u => if u.onboundaryAttached then onboundaryBody charIndex w else w
  | none => w

/-- The constructor (lines 217-225): settings default to rate 1, volume 1,
voice null; state stopped, index 0, no effects yet. -/
def initialSettings (s : SpeakPatch) : InternalSettings :=
  { rate := s.rate.getD 1
    volume := s.volume.getD 1
    voice := match s.voice with | some (some v) => some v | _ => none }

def initWorld (chunks : List (List Char)) (s : SpeakPatch) : World :=
  { q := { chunks := chunks
           settings := initialSettings s
           index := 0
           state := .stopped
           utterance := none
           retries := 0
           resumeFromOffset := 0
           spokenOffsetBase := 0
           currentChunkLength := 0
           boundarySupported := false
           lastKnownCharOffset := 0 }
    speaks := []
    utts := []
    nextId := 0
    notices := [] }

/-- Every externally triggerable transition: the public methods and the
adapter event deliveries. -/
inductive Op where
  | setChunksOp (cs : List (List Char))
  | updateSettingsOp (p : SpeakPatch)
  | playOp (si : Option Int)
  | pauseOp
  | resumeOp
  | stopOp
  | nextOp
  | prevOp
  | seekOp (i : Int) (doPlay : Bool)
  | deliverEndOp (uid : Nat)
  | deliverErrorOp (uid : Nat)
  | deliverBoundaryOp (uid : Nat) (charIndex : Nat)

def stepOp : Op → World → World
  | .setChunksOp cs, w => setChunks cs w
  | .updateSettingsOp p, w => updateSettings p w
  | .playOp si, w => play si w
  | .pauseOp, w => pause w
  | .resumeOp, w => resume w
  | .stopOp, w => stop w
  | .nextOp, w => next w
  | .prevOp, w => prev w
  | .seekOp i d, w => seek i d w
  | .deliverEndOp uid, w => deliverEnd uid w
  | .deliverErrorOp uid, w => deliverError uid w
  | .deliverBoundaryOp uid ci, w => deliverBoundary uid ci w
/-! ### Projection lemmas for the effect primitives -/

@[simp] theorem emitProgress_q (w : World) : (emitProgress w).q = w.q := rfl
@[simp] theorem emitProgress_speaks (w : World) :
    (emitProgress w).speaks = w.speaks := rfl
@[simp] theorem emitProgress_utts (w : World) :
    (emitProgress w).utts = w.utts := rfl
@[simp] theorem emitProgress_nextId (w : World) :
    (emitProgress w).nextId = w.nextId := rfl

@[simp] theorem emitIndex_q (w : World) : (emitIndex w).q = w.q := rfl
@[simp] theorem emitIndex_speaks (w : World) :
    (emitIndex w).speaks = w.speaks := rfl
@[simp] theorem emitIndex_utts (w : World) : (emitIndex w).utts = w.utts := rfl
@[simp] theorem emitIndex_nextId (w : World) :
    (emitIndex w).nextId = w.nextId := rfl

@[simp] theorem emitState_q (w : World) : (emitState w).q = w.q := rfl
@[simp] theorem emitState_speaks (w : World) :
    (emitState w).speaks = w.speaks := rfl
@[simp] theorem emitState_utts (w : World) : (emitState w).utts = w.utts := rfl
@[simp] theorem emitState_nextId (w : World) :
    (emitState w).nextId = w.nextId := rfl

@[simp] theorem emitError_q (w : World) : (emitError w).q = w.q := rfl
@[simp] theorem emitError_speaks (w : World) :
    (emitError w).speaks = w.speaks := rfl
@[simp] theorem emitError_utts (w : World) : (emitError w).utts = w.utts := rfl
@[simp] theorem emitError_nextId (w : World) :
    (emitError w).nextId = w.nextId := rfl
@[simp] theorem emitError_notices (w : World) :
    (emitError w).notices = w.notices ++ [.errorN] := rfl

@[simp] theorem resetOffsetsQ_chunks (q : QueueState) :
    (resetOffsetsQ q).chunks = q.chunks := rfl
@[simp] theorem resetOffsetsQ_index (q : QueueState) :
    (resetOffsetsQ q).index = q.index := rfl
@[simp] theorem resetOffsetsQ_state (q : QueueState) :
    (resetOffsetsQ q).state = q.state := rfl
@[simp] theorem resetOffsetsQ_settings (q : QueueState) :
    (resetOffsetsQ q).settings = q.settings := rfl
@[simp] theorem resetOffsetsQ_retries (q : QueueState) :
    (resetOffsetsQ q).retries = q.retries := rfl
@[simp] theorem resetOffsetsQ_utterance (q : QueueState) :
    (resetOffsetsQ q).utterance = q.utterance := rfl
@[simp] theorem resetOffsetsQ_boundarySupported (q : QueueState) :
    (resetOffsetsQ q).boundarySupported = q.boundarySupported := rfl
@[simp] theorem resetOffsetsQ_resumeFromOffset (q : QueueState) :
    (resetOffsetsQ q).resumeFromOffset = 0 := rfl
@[simp] theorem resetOffsetsQ_lastKnownCharOffset (q : QueueState) :
    (resetOffsetsQ q).lastKnownCharOffset = 0 := rfl

@[simp] theorem stop_q_chunks (w : World) : (stop w).q.chunks = w.q.chunks := rfl
@[simp] theorem stop_q_state (w : World) : (stop w).q.state = .stopped := rfl
@[simp] theorem stop_q_index (w : World) : (stop w).q.index = w.q.index := rfl
@[simp] theorem stop_q_settings (w : World) :
    (stop w).q.settings = w.q.settings := rfl
@[simp] theorem stop_q_retries (w : World) : (stop w).q.retries = 0 := rfl
@[simp] theorem stop_q_boundarySupported (w : World) :
    (stop w).q.boundarySupported = w.q.boundarySupported := rfl
@[simp] theorem stop_speaks (w : World) : (stop w).speaks = w.speaks := rfl
@[simp] theorem stop_utts (w : World) : (stop w).utts = w.utts := rfl
@[simp] theorem stop_nextId (w : World) : (stop w).nextId = w.nextId := rfl
@[simp] theorem stop_notices (w : World) :
    (stop w).notices = w.notices ++ [.stateN .stopped] := rfl

@[simp] theorem speakNew_q (t : List Char) (w : World) :
    (speakNew t w).q = {w.q with utterance := some w.nextId} := rfl
@[simp] theorem speakNew_speaks (t : List Char) (w : World) :
    (speakNew t w).speaks = w.speaks ++ [⟨w.nextId, t, w.q.settings⟩] := rfl
@[simp] theorem speakNew_notices (t : List Char) (w : World) :
    (speakNew t w).notices = w.notices := rfl

/-! ### Facts about the synthesis chain -/

/-- A notice either predates the step or is a progress notice carrying the
given `boundarySupported` flag (or is not a progress notice at all). -/
def progressFlagOk (bs : Bool) (n : Notice) : Prop :=
  ∀ i t cl co b, n = Notice.progressN i t cl co b → b = bs

theorem progressFlagOk_indexN (bs : Bool) (i t : Nat) :
    progressFlagOk bs (.indexN i t) := by
  intro _ _ _ _ _ h
  cases h

theorem progressFlagOk_stateN (bs : Bool) (st : PlayerState) :
    progressFlagOk bs (.stateN st) := by
  intro _ _ _ _ _ h
  cases h

theorem progressFlagOk_errorN (bs : Bool) : progressFlagOk bs .errorN := by
  intro _ _ _ _ _ h
  cases h

/-- Core facts about `speakCurrentF`: the chain never modifies the chunk
sequence, the settings, `boundarySupported` or the speak-call prefix; the
index is unchanged or stays within bounds; every new notice is either a
non-progress notice or a progress notice carrying the current
`boundarySupported` flag. -/
theorem speakCurrentF_facts (fuel : Nat) : ∀ w : World,
    (speakCurrentF fuel w).q.chunks = w.q.chunks ∧
    (speakCurrentF fuel w).q.boundarySupported = w.q.boundarySupported ∧
    (speakCurrentF fuel w).q.settings = w.q.settings ∧
    ((speakCurrentF fuel w).q.index = w.q.index ∨
      (speakCurrentF fuel w).q.index < w.q.chunks.length) ∧
    (∀ n ∈ (speakCurrentF fuel w).notices,
      n ∈ w.notices ∨ progressFlagOk w.q.boundarySupported n) := by
  induction fuel with
  | zero =>
    intro w
    refine ⟨rfl, rfl, rfl, Or.inl rfl, fun n hn => Or.inl hn⟩
  | succ fuel ih =>
    intro w
    rw [speakCurrentF]
    by_cases hemp : w.q.chunks.isEmpty
    · rw [if_pos hemp]
      refine ⟨rfl, rfl, rfl, Or.inl rfl, fun n hn => ?_⟩
      rw [stop_notices] at hn
      rcases List.mem_append.mp hn with hn | hn
      · exact Or.inl hn
      · simp at hn
        subst hn
        exact Or.inr (progressFlagOk_stateN _ _)
    · rw [if_neg hemp]
      simp only
      by_cases hrem : ((w.q.chunks.getD w.q.index []).drop
          (min w.q.resumeFromOffset (w.q.chunks.getD w.q.index []).length)).isEmpty
      · rw [if_pos hrem]
        by_cases hadv : w.q.index + 1 < w.q.chunks.length
        · rw [if_pos hadv]
          rcases ih _ with ⟨h1, h2, h3, h4, h5⟩
          refine ⟨h1, h2, h3, ?_, h5⟩
          rcases h4 with h4 | h4
          · rw [h4]
            exact Or.inr (by simpa using hadv)
          · exact Or.inr (by simpa using h4)
        · rw [if_neg hadv]
          refine ⟨rfl, rfl, rfl, Or.inl rfl, fun n hn => ?_⟩
          rw [stop_notices] at hn
          rcases List.mem_append.mp hn with hn | hn
          · exact Or.inl hn
          · simp at hn
            subst hn
            exact Or.inr (progressFlagOk_stateN _ _)
      · rw [if_neg hrem]
        refine ⟨rfl, rfl, rfl, Or.inl rfl, fun n hn => ?_⟩
        simp only [speakNew_notices] at hn
        unfold emitIndex emitProgress at hn
        simp only at hn
        rcases List.mem_append.mp hn with hn | hn
        · rcases List.mem_append.mp hn with hn | hn
          · rcases List.mem_append.mp hn with hn | hn
            · exact Or.inl hn
            · simp at hn
              subst hn
              exact Or.inr (progressFlagOk_indexN _ _ _)
          · simp at hn
            subst hn
            exact Or.inr (fun i t cl co b hb => by cases hb; rfl)
        · simp at hn
          subst hn
          exact Or.inr (fun i t cl co b hb => by cases hb; rfl)
/-- The result of `speakCurrent` when the current chunk has a non-empty
remainder past the resume offset: exactly one new adapter call with that
remainder and the current settings, after the index/progress emissions. -/
theorem speakCurrent_eq_of_remaining (w : World)
    (hne : w.q.chunks ≠ [])
    (hrem : (w.q.chunks.getD w.q.index []).drop
        (min w.q.resumeFromOffset (w.q.chunks.getD w.q.index []).length) ≠ []) :
    speakCurrent w
      = speakNew
          ((w.q.chunks.getD w.q.index []).drop
            (min w.q.resumeFromOffset (w.q.chunks.getD w.q.index []).length))
          (emitProgress (emitIndex { w with q := { w.q with
              spokenOffsetBase := min w.q.resumeFromOffset
                (w.q.chunks.getD w.q.index []).length
              currentChunkLength := (w.q.chunks.getD w.q.index []).length
              lastKnownCharOffset := min w.q.resumeFromOffset
                (w.q.chunks.getD w.q.index []).length
              resumeFromOffset := 0 } })) := by
  unfold speakCurrent
  rw [speakCurrentF]
  rw [if_neg (by simpa [List.isEmpty_iff] using hne)]
  simp only
  rw [if_neg (by simpa [List.isEmpty_iff] using hrem)]

/-! ### Claim C1 -/

/-- The world of claim C1's scenario: chunks `["あいうえお", "かきくけこ"]`
loaded into a freshly constructed controller. -/
def c1World : World :=
  setChunks ["あいうえお".toList, "かきくけこ".toList] (initWorld [] {})

/-- Claim C1, evaluated on the code.  `seek` takes only a chunk index (there
is no intra-chunk offset parameter) and resets all offsets: after
`seek(1, {play: false})` from stopped, no adapter call was made and
`getIndex()` is 1 as the claim says, but `getCharOffset()` is 0 — not 2 —
and a subsequent `play()` synthesizes the whole chunk `かきくけこ`, not the
claimed suffix `くけこ`. -/
theorem claim_C1_code_eval :
    getIndex (seek 1 false c1World) = 1 ∧
    (seek 1 false c1World).speaks = [] ∧
    getState (seek 1 false c1World) = .stopped ∧
    getCharOffset (seek 1 false c1World) = 0 ∧
    getCharOffset (seek 1 false c1World) ≠ 2 ∧
    (play none (seek 1 false c1World)).speaks.map SpeakCall.text
      = ["かきくけこ".toList] ∧
    (play none (seek 1 false c1World)).speaks.map SpeakCall.text
      ≠ ["くけこ".toList] := by
  decide

/-! ### Claim C10 -/

/-- Claim C10.  A patch whose `rate` and `voice` are absent or equal to the
current settings causes no restart and no adapter call: the whole world is
unchanged except that the settings are replaced by the merged copy. -/
theorem claim_C10 (w : World) (p : SpeakPatch)
    (hr : p.rate = none ∨ p.rate = some w.q.settings.rate)
    (hv : p.voice = none ∨ p.voice = some w.q.settings.voice) :
    updateSettings p w = { w with q := { w.q with settings :=
      { rate := p.rate.getD w.q.settings.rate
        volume := p.volume.getD w.q.settings.volume
        voice := match p.voice with
          | some (some v) => some v
          | _ => w.q.settings.voice } } } := by
  unfold updateSettings
  rcases hr with hr | hr <;> rcases hv with hv | hv
  · simp [hr, hv]
  · rcases hvv : w.q.settings.voice with _ | v <;> simp [hr, hv, hvv]
  · simp [hr, hv]
  · rcases hvv : w.q.settings.voice with _ | v <;> simp [hr, hv, hvv]

/-- Witness for C10: a volume-only patch on a concrete world. -/
theorem claim_C10_witness :
    (updateSettings { volume := some 2 } (initWorld ["ab".toList] {})).speaks
        = [] ∧
      (updateSettings { volume := some 2 }
          (initWorld ["ab".toList] {})).q.settings.volume = 2 := by
  rw [claim_C10 (initWorld ["ab".toList] {}) { volume := some 2 }
    (Or.inl rfl) (Or.inl rfl)]
  exact ⟨rfl, rfl⟩

/-! ### Claim C5 -/

/-- The world of claim C5's scenario: one chunk, played, then stopped; the
utterance with id 0 has been superseded by `stop` but its callbacks remain
attached. -/
def c5World : World := stop (play none (setChunks ["a".toList] (initWorld [] {})))

/-- Claim C5, counterexample.  After `stop`, a late `onerror` from the
superseded utterance 0 is not ignored: the handler has no state guard, so it
increments the retry counter and issues a new adapter `speak` call even
though the controller is stopped — a stale event mutating state past a
newer command. -/
theorem claim_C5_counterexample :
    getState c5World = .stopped ∧
    c5World.speaks.length = 1 ∧
    findUtt c5World 0 = some ⟨0, true, true, true⟩ ∧
    (deliverError 0 c5World).speaks.length = 2 ∧
    (deliverError 0 c5World).q.retries = c5World.q.retries + 1 := by
  decide

/-- Claim C5, amended.  Two no-op guards do hold: an event from an utterance
whose callbacks were detached (a deliberate restart) never mutates anything;
and a late completion (`onend`) arriving when the controller is not playing
causes no index change, no state transition and no synthesis call, because
that handler checks the current state.  (The `onerror` handler performs no
such check — see the counterexample.) -/
theorem claim_C5 :
    (∀ (w : World) (uid : Nat) (u : UttRec), findUtt w uid = some u →
      u.onendAttached = true → w.q.state ≠ .playing → deliverEnd uid w = w) ∧
    (∀ (w : World) (uid : Nat) (u : UttRec) (ci : Nat),
      findUtt w uid = some u →
      u.onendAttached = false → u.onerrorAttached = false →
      u.onboundaryAttached = false →
      deliverEnd uid w = w ∧ deliverError uid w = w ∧
        deliverBoundary uid ci w = w) := by
  constructor
  · intro w uid u hf ha hs
    unfold deliverEnd
    rw [hf]
    show (if u.onendAttached = true then onendBody w else w) = w
    rw [if_pos ha]
    unfold onendBody
    rw [if_pos hs]
  · intro w uid u ci hf h1 h2 h3
    refine ⟨?_, ?_, ?_⟩
    · unfold deliverEnd
      rw [hf]
      show (if u.onendAttached = true then onendBody w else w) = w
      rw [if_neg (by simp [h1])]
    · unfold deliverError
      rw [hf]
      show (if u.onerrorAttached = true then onerrorBody w else w) = w
      rw [if_neg (by simp [h2])]
    · unfold deliverBoundary
      rw [hf]
      show (if u.onboundaryAttached = true then onboundaryBody ci w else w) = w
      rw [if_neg (by simp [h3])]

/-- Witness for C5 (amended): the stale `onend` after `stop` in the concrete
scenario is a no-op. -/
theorem claim_C5_witness : deliverEnd 0 c5World = c5World :=
  claim_C5.1 c5World 0 ⟨0, true, true, true⟩ (by decide) rfl (by decide)
/-! ### Claim C4 -/

theorem speakCurrent_speaks_of (w : World) (chunks : List (List Char))
    (idx off nid : Nat) (st : InternalSettings) (sp : List SpeakCall)
    (hc : w.q.chunks = chunks) (hi : w.q.index = idx)
    (ho : w.q.resumeFromOffset = off) (hn : w.nextId = nid)
    (hs : w.q.settings = st) (hsp : w.speaks = sp)
    (hne : chunks ≠ [])
    (hrem : (chunks.getD idx []).drop
      (min off (chunks.getD idx []).length) ≠ []) :
    (speakCurrent w).speaks
      = sp ++ [⟨nid,
          (chunks.getD idx []).drop (min off (chunks.getD idx []).length),
          st⟩] := by
  subst hc
  subst hi
  subst ho
  subst hn
  subst hs
  subst hsp
  rw [speakCurrent_eq_of_remaining w hne hrem]
  simp

theorem restartCurrent_speaks (off : Nat) (w : World)
    (hne : w.q.chunks ≠ [])
    (hrem : (w.q.chunks.getD w.q.index []).drop
        (min (min off w.q.currentChunkLength)
          (w.q.chunks.getD w.q.index []).length) ≠ []) :
    (restartCurrent off w).speaks
      = w.speaks ++ [⟨w.nextId,
          (w.q.chunks.getD w.q.index []).drop
            (min (min off w.q.currentChunkLength)
              (w.q.chunks.getD w.q.index []).length),
          w.q.settings⟩] := by
  unfold restartCurrent
  rw [if_neg (by simpa [List.isEmpty_iff] using hne)]
  simp only [Nat.zero_max]
  rcases hu : w.q.utterance with _ | uid <;>
    simp only [hu] <;>
    (apply speakCurrent_speaks_of <;>
      first
        | rfl
        | exact hne
        | exact hrem)

/-- Claim C4.  A settings patch whose rate and voice are absent or unchanged
(for instance a volume-only patch) never triggers an adapter call, in any
state.  A rate change while playing resynthesizes the current chunk at the
new rate: from the last known intra-chunk offset when boundary events have
been observed (`boundarySupported`), and from offset 0 — the whole chunk —
when none has been observed. -/
theorem claim_C4 :
    (∀ (w : World) (p : SpeakPatch),
      (p.rate = none ∨ p.rate = some w.q.settings.rate) →
      (p.voice = none ∨ p.voice = some w.q.settings.voice) →
      (updateSettings p w).speaks = w.speaks) ∧
    (∀ (w : World) (r : ℚ), w.q.state = .playing → w.q.chunks ≠ [] →
      r ≠ w.q.settings.rate → w.q.boundarySupported = true →
      w.q.currentChunkLength = (w.q.chunks.getD w.q.index []).length →
      w.q.lastKnownCharOffset < (w.q.chunks.getD w.q.index []).length →
      (updateSettings { rate := some r } w).speaks
        = w.speaks ++ [⟨w.nextId,
            (w.q.chunks.getD w.q.index []).drop w.q.lastKnownCharOffset,
            { rate := r, volume := w.q.settings.volume,
              voice := w.q.settings.voice }⟩]) ∧
    (∀ (w : World) (r : ℚ), w.q.state = .playing → w.q.chunks ≠ [] →
      r ≠ w.q.settings.rate → w.q.boundarySupported = false →
      w.q.chunks.getD w.q.index [] ≠ [] →
      (updateSettings { rate := some r } w).speaks
        = w.speaks ++ [⟨w.nextId, w.q.chunks.getD w.q.index [],
            { rate := r, volume := w.q.settings.volume,
              voice := w.q.settings.voice }⟩]) := by
  refine ⟨?_, ?_, ?_⟩
  · intro w p hr hv
    unfold updateSettings
    rcases hr with hr | hr <;> rcases hv with hv | hv <;>
      simp [hr, hv]
  · intro w r hst hne hr hbs hcl hlt
    unfold updateSettings
    rw [if_neg (by simp)]
    rw [if_pos ⟨by simp [hr], hst⟩]
    rw [hbs]
    have hif : (if (true : Bool) = true then w.q.lastKnownCharOffset else 0)
        = w.q.lastKnownCharOffset := rfl
    rw [hif]
    have heq : min (min w.q.lastKnownCharOffset w.q.currentChunkLength)
        (w.q.chunks.getD w.q.index []).length = w.q.lastKnownCharOffset := by
      omega
    rw [restartCurrent_speaks _ _ (by simpa using hne)
      (by
        simp only [heq, ne_eq, List.drop_eq_nil_iff]
        omega)]
    simp only [heq]
    rfl
  · intro w r hst hne hr hbs hcne
    unfold updateSettings
    rw [if_neg (by simp)]
    rw [if_pos ⟨by simp [hr], hst⟩]
    rw [hbs]
    have hif : (if (false : Bool) = true then w.q.lastKnownCharOffset else 0)
        = 0 := rfl
    rw [hif]
    have heq : min (min 0 w.q.currentChunkLength)
        (w.q.chunks.getD w.q.index []).length = 0 := by
      omega
    rw [restartCurrent_speaks _ _ (by simpa using hne)
      (by
        simp only [heq]
        simpa using hcne)]
    simp only [heq]
    rfl

/-- Witness for C4: the repository's own test scenario — an 8-character
chunk, a boundary event at offset 4, then a rate change to 2 — resynthesizes
exactly the last 4 characters at the new rate; and a volume-only update adds
no adapter call. -/
theorem claim_C4_witness :
    (updateSettings { volume := some (1/2) }
        (deliverBoundary 0 4 (play none
          (setChunks ["abcdefgh".toList] (initWorld [] {}))))).speaks
      = (deliverBoundary 0 4 (play none
          (setChunks ["abcdefgh".toList] (initWorld [] {})))).speaks ∧
    (updateSettings { rate := some 2 }
        (deliverBoundary 0 4 (play none
          (setChunks ["abcdefgh".toList] (initWorld [] {}))))).speaks
      = (deliverBoundary 0 4 (play none
          (setChunks ["abcdefgh".toList] (initWorld [] {})))).speaks
        ++ [⟨1, "efgh".toList, { rate := 2, volume := 1, voice := none }⟩] := by
  constructor
  · exact claim_C4.1 _ _ (Or.inl rfl) (Or.inl rfl)
  · have h := claim_C4.2.1 (deliverBoundary 0 4 (play none
      (setChunks ["abcdefgh".toList] (initWorld [] {})))) 2
      (by decide) (by decide) (by decide) (by decide) (by decide) (by decide)
    rw [h]
    decide
/-! ### Claim C2 -/

/-- Number of error notifications in a notice list. -/
def errCount (ns : List Notice) : Nat :=
  (ns.filter (fun n => n == Notice.errorN)).length

theorem errCount_append (a b : List Notice) :
    errCount (a ++ b) = errCount a + errCount b := by
  simp [errCount]

theorem errCount_indexN (i t : Nat) : errCount [.indexN i t] = 0 := rfl
theorem errCount_stateN (st : PlayerState) : errCount [.stateN st] = 0 := rfl
theorem errCount_progressN (i t cl co : Nat) (b : Bool) :
    errCount [.progressN i t cl co b] = 0 := rfl
theorem errCount_errorN : errCount [.errorN] = 1 := rfl

/-- One `speakCurrent` step when the resume offset lies strictly inside the
current chunk: retries, index and state are untouched, exactly one adapter
call for the chunk's remainder is appended, and no error notification is
emitted. -/
theorem speakCurrent_main (w : World)
    (hne : w.q.chunks ≠ [])
    (hoff : w.q.resumeFromOffset < (w.q.chunks.getD w.q.index []).length) :
    (speakCurrent w).q.retries = w.q.retries ∧
    (speakCurrent w).q.index = w.q.index ∧
    (speakCurrent w).q.state = w.q.state ∧
    (speakCurrent w).speaks = w.speaks ++ [⟨w.nextId,
      (w.q.chunks.getD w.q.index []).drop w.q.resumeFromOffset,
      w.q.settings⟩] ∧
    errCount (speakCurrent w).notices = errCount w.notices := by
  have hmin : min w.q.resumeFromOffset
      (w.q.chunks.getD w.q.index []).length = w.q.resumeFromOffset := by
    omega
  have hrem : (w.q.chunks.getD w.q.index []).drop
      (min w.q.resumeFromOffset (w.q.chunks.getD w.q.index []).length)
        ≠ [] := by
    simp only [hmin, ne_eq, List.drop_eq_nil_iff]
    omega
  rw [speakCurrent_eq_of_remaining w hne hrem]
  refine ⟨rfl, rfl, rfl, ?_, ?_⟩
  · rw [speakNew_speaks]
    rw [hmin]
    rfl
  · simp only [speakNew_notices]
    unfold emitIndex emitProgress
    simp only
    rw [errCount_append, errCount_append, errCount_append]
    rw [errCount_indexN, errCount_progressN]
    omega

/-- `autoAdvance` when further chunks remain and the next chunk is longer
than the (reset) resume offset: index moves forward, retries reset, one new
adapter call, no error notification. -/
theorem autoAdvance_adv (u : World)
    (hadv : u.q.index + 1 < u.q.chunks.length)
    (hoff : u.q.resumeFromOffset
      < (u.q.chunks.getD (u.q.index + 1) []).length) :
    (autoAdvance u).q.index = u.q.index + 1 ∧
    (autoAdvance u).q.retries = 0 ∧
    (autoAdvance u).q.state = u.q.state ∧
    (autoAdvance u).speaks = u.speaks ++ [⟨u.nextId,
      (u.q.chunks.getD (u.q.index + 1) []).drop u.q.resumeFromOffset,
      u.q.settings⟩] ∧
    errCount (autoAdvance u).notices = errCount u.notices := by
  unfold autoAdvance
  rw [if_pos hadv]
  have hne : u.q.chunks ≠ [] := by
    intro he
    rw [he] at hadv
    simp at hadv
  refine ⟨?_, ?_, ?_, ?_, ?_⟩
  · exact (speakCurrent_main _ (by exact hne) (by exact hoff)).2.1
  · exact (speakCurrent_main _ (by exact hne) (by exact hoff)).1
  · exact (speakCurrent_main _ (by exact hne) (by exact hoff)).2.2.1
  · exact (speakCurrent_main _ (by exact hne) (by exact hoff)).2.2.2.1
  · exact (speakCurrent_main _ (by exact hne) (by exact hoff)).2.2.2.2

/-- `autoAdvance` on the last chunk: a clean `stop`. -/
theorem autoAdvance_last_facts (u : World)
    (h : u.q.chunks.length ≤ u.q.index + 1) :
    (autoAdvance u).q.state = .stopped ∧
    (autoAdvance u).speaks = u.speaks ∧
    errCount (autoAdvance u).notices = errCount u.notices := by
  unfold autoAdvance
  rw [if_neg (by omega)]
  refine ⟨rfl, rfl, ?_⟩
  rw [stop_notices, errCount_append, errCount_stateN]
  omega

/-- Claim C2.  A synthesis failure while `retries < 2` increments the retry
counter and resynthesizes the same chunk from the last known intra-chunk
offset, with no error notification; once 2 retries are exhausted, exactly
one error notification is emitted and the controller advances past the
offending chunk — resetting the retry counter and synthesizing the next
chunk — or stops cleanly if it was the last chunk.  The `retries < 2` guard
is strict: a chunk is never retried more than twice. -/
theorem claim_C2 (w : World) (uid : Nat) (u : UttRec)
    (hf : findUtt w uid = some u) (ha : u.onerrorAttached = true) :
    (w.q.retries < 2 → w.q.chunks ≠ [] →
      w.q.lastKnownCharOffset < (w.q.chunks.getD w.q.index []).length →
      (deliverError uid w).q.retries = w.q.retries + 1 ∧
      (deliverError uid w).q.index = w.q.index ∧
      (deliverError uid w).speaks = w.speaks ++ [⟨w.nextId,
        (w.q.chunks.getD w.q.index []).drop w.q.lastKnownCharOffset,
        w.q.settings⟩] ∧
      errCount (deliverError uid w).notices = errCount w.notices) ∧
    (2 ≤ w.q.retries → (∀ c ∈ w.q.chunks, c ≠ []) →
      errCount (deliverError uid w).notices = errCount w.notices + 1 ∧
      (w.q.index + 1 < w.q.chunks.length →
        (deliverError uid w).q.index = w.q.index + 1 ∧
        (deliverError uid w).q.retries = 0 ∧
        (deliverError uid w).speaks = w.speaks ++ [⟨w.nextId,
          w.q.chunks.getD (w.q.index + 1) [], w.q.settings⟩]) ∧
      (w.q.chunks.length ≤ w.q.index + 1 →
        (deliverError uid w).q.state = .stopped ∧
        (deliverError uid w).speaks = w.speaks)) := by
  have hde : deliverError uid w = onerrorBody w := by
    unfold deliverError
    rw [hf]
    show (if u.onerrorAttached = true then onerrorBody w else w) = onerrorBody w
    rw [if_pos ha]
  rw [hde]
  constructor
  · intro h2 hne hlt
    unfold onerrorBody
    rw [if_pos h2]
    refine ⟨?_, ?_, ?_, ?_⟩
    · exact (speakCurrent_main _ (by exact hne) (by exact hlt)).1
    · exact (speakCurrent_main _ (by exact hne) (by exact hlt)).2.1
    · exact (speakCurrent_main _ (by exact hne) (by exact hlt)).2.2.2.1
    · exact (speakCurrent_main _ (by exact hne) (by exact hlt)).2.2.2.2
  · intro hge hall
    unfold onerrorBody
    rw [if_neg (by omega)]
    by_cases hadv : w.q.index + 1 < w.q.chunks.length
    · have hpos : 0 < (w.q.chunks.getD (w.q.index + 1) []).length := by
        have hmem : w.q.chunks.getD (w.q.index + 1) [] ∈ w.q.chunks := by
          rw [List.getD_eq_getElem _ _ hadv]
          exact List.getElem_mem hadv
        have hnn := hall _ hmem
        rcases hq : w.q.chunks.getD (w.q.index + 1) [] with _ | ⟨c, cs⟩
        · rw [hq] at hnn; exact absurd rfl hnn
        · simp [hq]
      refine ⟨?_, fun _ => ⟨?_, ?_, ?_⟩, fun hc => absurd hadv (by omega)⟩
      · exact ((autoAdvance_adv _ (by exact hadv) (by exact hpos)).2.2.2.2).trans
          (show errCount (w.notices ++ [Notice.errorN])
              = errCount w.notices + 1 by
            rw [errCount_append, errCount_errorN])
      · exact (autoAdvance_adv _ (by exact hadv) (by exact hpos)).1
      · exact (autoAdvance_adv _ (by exact hadv) (by exact hpos)).2.1
      · exact (autoAdvance_adv _ (by exact hadv) (by exact hpos)).2.2.2.1
    · have hle : w.q.chunks.length ≤ w.q.index + 1 := by omega
      refine ⟨?_, fun hc => absurd hc hadv, fun _ => ⟨?_, ?_⟩⟩
      · exact ((autoAdvance_last_facts _ (by exact hle)).2.2).trans
          (show errCount (w.notices ++ [Notice.errorN])
              = errCount w.notices + 1 by
            rw [errCount_append, errCount_errorN])
      · exact (autoAdvance_last_facts _ (by exact hle)).1
      · exact (autoAdvance_last_facts _ (by exact hle)).2.1
/-- The world of claim C2's witness: two chunks, playing the first, with
utterance 0 in flight. -/
def c2World : World :=
  play none (setChunks ["ab".toList, "c".toList] (initWorld [] {}))

/-- Witness for C2: the first failure on the in-flight utterance retries the
same chunk and emits no error notification. -/
theorem claim_C2_witness :
    (deliverError 0 c2World).q.retries = c2World.q.retries + 1 ∧
    (deliverError 0 c2World).q.index = c2World.q.index ∧
    (deliverError 0 c2World).speaks = c2World.speaks ++ [⟨c2World.nextId,
      (c2World.q.chunks.getD c2World.q.index []).drop
        c2World.q.lastKnownCharOffset,
      c2World.q.settings⟩] ∧
    errCount (deliverError 0 c2World).notices = errCount c2World.notices :=
  (claim_C2 c2World 0 ⟨0, true, true, true⟩ (by decide) rfl).1
    (by decide) (by decide) (by decide)
/-! ### Claim C8 -/

/-- The safety invariant: the current index stays inside the chunk sequence
(or is 0 when the sequence is empty). -/
def IndexInBounds (w : World) : Prop :=
  w.q.index < max w.q.chunks.length 1

theorem clampIdx_lt (i : Int) (len : Nat) : clampIdx i len < max len 1 := by
  unfold clampIdx
  omega

theorem speakCurrent_inBounds (w : World) (h : IndexInBounds w) :
    IndexInBounds (speakCurrent w) := by
  have hf := speakCurrentF_facts (w.q.chunks.length + 1) w
  unfold IndexInBounds at *
  unfold speakCurrent
  rcases hf with ⟨hc, _, _, hi, _⟩
  rw [hc]
  rcases hi with hi | hi
  · rw [hi]
    exact h
  · omega

theorem autoAdvance_inBounds (w : World) (h : IndexInBounds w) :
    IndexInBounds (autoAdvance w) := by
  unfold autoAdvance
  by_cases hadv : w.q.index + 1 < w.q.chunks.length
  · rw [if_pos hadv]
    apply speakCurrent_inBounds
    unfold IndexInBounds
    show w.q.index + 1 < max w.q.chunks.length 1
    omega
  · rw [if_neg hadv]
    exact h

theorem restartCurrent_inBounds (off : Nat) (w : World) (h : IndexInBounds w) :
    IndexInBounds (restartCurrent off w) := by
  unfold restartCurrent
  by_cases he : w.q.chunks.isEmpty
  · rw [if_pos he]
    exact h
  · rw [if_neg he]
    rcases hu : w.q.utterance with _ | uid <;>
      simp only [hu] <;>
      (apply speakCurrent_inBounds; exact h)

theorem stepOp_inBounds (op : Op) (w : World) (h : IndexInBounds w) :
    IndexInBounds (stepOp op w) := by
  cases op with
  | setChunksOp cs =>
    show IndexInBounds (setChunks cs w)
    unfold setChunks IndexInBounds
    simp only [emitIndex_q]
    show min w.q.index (max (cs.length - 1) 0) < max cs.length 1
    omega
  | updateSettingsOp p =>
    show IndexInBounds (updateSettings p w)
    unfold updateSettings
    dsimp only
    repeat' split
    all_goals first
      | exact restartCurrent_inBounds _ _ h
      | exact h
  | playOp si =>
    show IndexInBounds (play si w)
    unfold play
    rcases si with _ | i
    · dsimp only
      split
      · unfold resume
        split
        · exact h
        · exact h
      · split
        · exact h
        · exact speakCurrent_inBounds _ h
    · dsimp only
      have hw1 : IndexInBounds
          ({w with
            q := resetOffsetsQ {w.q with index := clampIdx i w.q.chunks.length}}
            : World) := by
        unfold IndexInBounds
        show clampIdx i w.q.chunks.length < max w.q.chunks.length 1
        exact clampIdx_lt i w.q.chunks.length
      split
      · unfold resume
        split
        · exact hw1
        · exact hw1
      · split
        · exact hw1
        · exact speakCurrent_inBounds _ hw1
  | pauseOp =>
    show IndexInBounds (pause w)
    unfold pause
    split
    · exact h
    · exact h
  | resumeOp =>
    show IndexInBounds (resume w)
    unfold resume
    split
    · exact h
    · exact h
  | stopOp =>
    show IndexInBounds (stop w)
    exact h
  | nextOp =>
    show IndexInBounds (next w)
    unfold next
    by_cases he : w.q.chunks.isEmpty
    · rw [if_pos he]
      exact h
    · rw [if_neg he]
      have hlen : 1 ≤ w.q.chunks.length := by
        rcases hc : w.q.chunks with _ | ⟨c, cs⟩
        · rw [hc] at he; simp at he
        · simp [hc]
      have hw1 : IndexInBounds
          ({ w with
            q := resetOffsetsQ
              {w.q with index := min (w.q.index + 1) (w.q.chunks.length - 1)} }
            : World) := by
        unfold IndexInBounds
        show min (w.q.index + 1) (w.q.chunks.length - 1)
          < max w.q.chunks.length 1
        omega
      dsimp only
      split
      · exact speakCurrent_inBounds _ hw1
      · exact hw1
  | prevOp =>
    show IndexInBounds (prev w)
    unfold prev
    by_cases he : w.q.chunks.isEmpty
    · rw [if_pos he]
      exact h
    · rw [if_neg he]
      have hw1 : IndexInBounds ({ w with
          q := resetOffsetsQ {w.q with index := w.q.index - 1} } : World) := by
        unfold IndexInBounds at h ⊢
        show w.q.index - 1 < max w.q.chunks.length 1
        omega
      dsimp only
      split
      · exact speakCurrent_inBounds _ hw1
      · exact hw1
  | seekOp i d =>
    show IndexInBounds (seek i d w)
    unfold seek
    by_cases he : w.q.chunks.isEmpty
    · rw [if_pos he]
      exact h
    · rw [if_neg he]
      have hw2 : clampIdx i w.q.chunks.length < max w.q.chunks.length 1 :=
        clampIdx_lt i w.q.chunks.length
      dsimp only
      split
      · apply speakCurrent_inBounds
        exact hw2
      · split
        · unfold pause
          split
          · exact hw2
          · exact hw2
        · exact hw2
  | deliverEndOp uid =>
    show IndexInBounds (deliverEnd uid w)
    unfold deliverEnd
    rcases hfu : findUtt w uid with _ | u
    · exact h
    · show IndexInBounds (if u.onendAttached = true then onendBody w else w)
      split
      · unfold onendBody
        split
        · exact h
        · exact autoAdvance_inBounds _ h
      · exact h
  | deliverErrorOp uid =>
    show IndexInBounds (deliverError uid w)
    unfold deliverError
    rcases hfu : findUtt w uid with _ | u
    · exact h
    · show IndexInBounds (if u.onerrorAttached = true then onerrorBody w else w)
      split
      · unfold onerrorBody
        split
        · exact speakCurrent_inBounds _ h
        · exact autoAdvance_inBounds _ h
      · exact h
  | deliverBoundaryOp uid ci =>
    show IndexInBounds (deliverBoundary uid ci w)
    unfold deliverBoundary
    rcases hfu : findUtt w uid with _ | u
    · exact h
    · show IndexInBounds
        (if u.onboundaryAttached = true then onboundaryBody ci w else w)
      split
      · exact h
      · exact h
theorem speakCurrent_lt_len (w : World) (h : w.q.index < w.q.chunks.length) :
    (speakCurrent w).q.index < w.q.chunks.length := by
  have hf := speakCurrentF_facts (w.q.chunks.length + 1) w
  unfold speakCurrent
  rcases hf with ⟨_, _, _, hi, _⟩
  rcases hi with hi | hi
  · rw [hi]
    exact h
  · exact hi

theorem clampIdx_lt_len (i : Int) (len : Nat) (h : len ≠ 0) :
    clampIdx i len < len := by
  unfold clampIdx
  omega

/-- Claim C8.  Every public controller method is total and lands in a safe
state: the index invariant `IndexInBounds` is preserved by every operation
(method call or event delivery); an arbitrary — possibly out-of-range —
index passed to `play` or `seek` is clamped into `[0, chunkCount-1]`; on an
empty chunk sequence `seek`, `next` and `prev` are exact no-ops and `play`
from the stopped state lands back in `stopped` with index 0.  (In this
model every method is a total function by construction: nothing throws.) -/
theorem claim_C8 :
    (∀ (op : Op) (w : World), IndexInBounds w → IndexInBounds (stepOp op w)) ∧
    (∀ (w : World) (i : Int), w.q.chunks ≠ [] →
      (play (some i) w).q.index < w.q.chunks.length ∧
      ∀ d, (seek i d w).q.index < w.q.chunks.length) ∧
    (∀ (w : World), w.q.chunks = [] →
      (∀ (i : Int) (d : Bool), seek i d w = w) ∧ next w = w ∧ prev w = w) ∧
    (∀ (w : World) (i : Int), w.q.chunks = [] → w.q.state = .stopped →
      (play (some i) w).q.state = .stopped ∧ (play (some i) w).q.index = 0) := by
  refine ⟨stepOp_inBounds, ?_, ?_, ?_⟩
  · intro w i hne
    have hlen : w.q.chunks.length ≠ 0 := by
      intro h0
      exact hne (List.length_eq_zero.mp h0)
    have hclamp := clampIdx_lt_len i w.q.chunks.length hlen
    constructor
    · unfold play
      dsimp only
      split
      · unfold resume
        split
        · exact hclamp
        · exact hclamp
      · split
        · exact hclamp
        · exact speakCurrent_lt_len _ (by exact hclamp)
    · intro d
      unfold seek
      rw [if_neg (by simpa [List.isEmpty_iff] using hne)]
      dsimp only
      split
      · exact speakCurrent_lt_len _ (by exact hclamp)
      · split
        · unfold pause
          split
          · exact hclamp
          · exact hclamp
        · exact hclamp
  · intro w hc
    obtain ⟨⟨chunks, settings, index, state, utt, retries, rfo, sob, ccl,
      bs, lko⟩, speaks, utts, nid, notices⟩ := w
    simp only at hc
    subst hc
    exact ⟨fun i d => rfl, rfl, rfl⟩
  · intro w i hc hst
    obtain ⟨⟨chunks, settings, index, state, utt, retries, rfo, sob, ccl,
      bs, lko⟩, speaks, utts, nid, notices⟩ := w
    simp only at hc hst
    subst hc
    subst hst
    constructor
    · rfl
    · show clampIdx i 0 = 0
      unfold clampIdx
      omega

/-- Witness for C8: a far out-of-range `play(5)` on a one-chunk controller
is clamped, and methods on an empty controller are no-ops. -/
theorem claim_C8_witness :
    IndexInBounds (stepOp (Op.playOp (some 5)) (initWorld ["ab".toList] {})) ∧
    (play (some 5) (initWorld ["ab".toList] {})).q.index
      < (initWorld ["ab".toList] {}).q.chunks.length ∧
    next (initWorld [] {}) = initWorld [] {} ∧
    (play (some 5) (initWorld [] {})).q.state = .stopped :=
  ⟨claim_C8.1 (Op.playOp (some 5)) (initWorld ["ab".toList] {})
     (by unfold IndexInBounds; decide),
   (claim_C8.2.1 (initWorld ["ab".toList] {}) 5 (by decide)).1,
   (claim_C8.2.2.1 (initWorld [] {}) rfl).2.1,
   (claim_C8.2.2.2 (initWorld [] {}) 5 rfl rfl).1⟩
/-! ### Claim C9 -/

theorem bsOk_speakCurrent (w : World) (hbs : w.q.boundarySupported = true) :
    (speakCurrent w).q.boundarySupported = true ∧
    ∀ n ∈ (speakCurrent w).notices, n ∈ w.notices ∨ progressFlagOk true n := by
  have hf := speakCurrentF_facts (w.q.chunks.length + 1) w
  unfold speakCurrent
  rcases hf with ⟨_, h2, _, _, h5⟩
  refine ⟨by rw [h2]; exact hbs, fun n hn => ?_⟩
  rcases h5 n hn with h | h
  · exact Or.inl h
  · rw [hbs] at h
    exact Or.inr h

theorem bsOk_autoAdvance (w : World) (hbs : w.q.boundarySupported = true) :
    (autoAdvance w).q.boundarySupported = true ∧
    ∀ n ∈ (autoAdvance w).notices, n ∈ w.notices ∨ progressFlagOk true n := by
  unfold autoAdvance
  split
  · exact bsOk_speakCurrent _ (by exact hbs)
  · refine ⟨by rw [stop_q_boundarySupported]; exact hbs, fun n hn => ?_⟩
    rw [stop_notices] at hn
    rcases List.mem_append.mp hn with hn | hn
    · exact Or.inl hn
    · simp at hn
      subst hn
      exact Or.inr (progressFlagOk_stateN _ _)

theorem bsOk_restartCurrent (off : Nat) (w : World)
    (hbs : w.q.boundarySupported = true) :
    (restartCurrent off w).q.boundarySupported = true ∧
    ∀ n ∈ (restartCurrent off w).notices,
      n ∈ w.notices ∨ progressFlagOk true n := by
  unfold restartCurrent
  split
  · exact ⟨hbs, fun n hn => Or.inl hn⟩
  · rcases hu : w.q.utterance with _ | uid <;>
      simp only [hu] <;>
      exact bsOk_speakCurrent _ (by exact hbs)

theorem bsOk_emitIndex (u : World) (hbs : u.q.boundarySupported = true) :
    (emitIndex u).q.boundarySupported = true ∧
    ∀ n ∈ (emitIndex u).notices, n ∈ u.notices ∨ progressFlagOk true n := by
  refine ⟨hbs, fun n hn => ?_⟩
  unfold emitIndex emitProgress at hn
  simp only at hn
  rcases List.mem_append.mp hn with hn | hn
  · rcases List.mem_append.mp hn with hn | hn
    · exact Or.inl hn
    · simp at hn
      subst hn
      exact Or.inr (progressFlagOk_indexN _ _ _)
  · simp at hn
    subst hn
    exact Or.inr (fun i t cl co b hb => by cases hb; exact hbs)

theorem bsOk_pause (u : World) (hbs : u.q.boundarySupported = true) :
    (pause u).q.boundarySupported = true ∧
    ∀ n ∈ (pause u).notices, n ∈ u.notices ∨ progressFlagOk true n := by
  unfold pause
  split
  · exact ⟨hbs, fun n hn => Or.inl hn⟩
  · refine ⟨hbs, fun n hn => ?_⟩
    unfold emitState at hn
    simp only at hn
    rcases List.mem_append.mp hn with hn | hn
    · exact Or.inl hn
    · simp at hn
      subst hn
      exact Or.inr (progressFlagOk_stateN _ _)

theorem bsOk_resume (u : World) (hbs : u.q.boundarySupported = true) :
    (resume u).q.boundarySupported = true ∧
    ∀ n ∈ (resume u).notices, n ∈ u.notices ∨ progressFlagOk true n := by
  unfold resume
  split
  · exact ⟨hbs, fun n hn => Or.inl hn⟩
  · refine ⟨hbs, fun n hn => ?_⟩
    unfold emitState at hn
    simp only at hn
    rcases List.mem_append.mp hn with hn | hn
    · exact Or.inl hn
    · simp at hn
      subst hn
      exact Or.inr (progressFlagOk_stateN _ _)

theorem bsOk_emitIndex_pause (u : World)
    (hbs : u.q.boundarySupported = true) :
    (emitIndex (pause u)).q.boundarySupported = true ∧
    ∀ n ∈ (emitIndex (pause u)).notices,
      n ∈ u.notices ∨ progressFlagOk true n := by
  have h1 := bsOk_pause u hbs
  have h2 := bsOk_emitIndex (pause u) h1.1
  exact ⟨h2.1, fun n hn =>
    (h2.2 n hn).elim (fun h => (h1.2 n h).elim Or.inl Or.inr) Or.inr⟩

theorem bsOk_chain {w u : World} (step : World → World)
    (hnotices : ∀ n ∈ u.notices, n ∈ w.notices ∨ progressFlagOk true n)
    (hstep : (step u).q.boundarySupported = true ∧
      ∀ n ∈ (step u).notices, n ∈ u.notices ∨ progressFlagOk true n) :
    (step u).q.boundarySupported = true ∧
    ∀ n ∈ (step u).notices, n ∈ w.notices ∨ progressFlagOk true n :=
  ⟨hstep.1, fun n hn => (hstep.2 n hn).elim (fun h => hnotices n h) Or.inr⟩

theorem deliverEnd_eq {w : World} {uid : Nat} {u : UttRec}
    (hf : findUtt w uid = some u) :
    deliverEnd uid w = if u.onendAttached = true then onendBody w else w := by
  unfold deliverEnd
  rw [hf]

theorem deliverError_eq {w : World} {uid : Nat} {u : UttRec}
    (hf : findUtt w uid = some u) :
    deliverError uid w
      = if u.onerrorAttached = true then onerrorBody w else w := by
  unfold deliverError
  rw [hf]

theorem deliverBoundary_eq {w : World} {uid ci : Nat} {u : UttRec}
    (hf : findUtt w uid = some u) :
    deliverBoundary uid ci w
      = if u.onboundaryAttached = true then onboundaryBody ci w else w := by
  unfold deliverBoundary
  rw [hf]

theorem stepOp_bsOk (op : Op) (w : World)
    (hbs : w.q.boundarySupported = true) :
    (stepOp op w).q.boundarySupported = true ∧
    ∀ n ∈ (stepOp op w).notices, n ∈ w.notices ∨ progressFlagOk true n := by
  have hstateN : ∀ (ns : List Notice) (st : PlayerState) (n : Notice),
      n ∈ ns ++ [Notice.stateN st] →
      n ∈ ns ∨ progressFlagOk true n := by
    intro ns st n hn
    rcases List.mem_append.mp hn with hn | hn
    · exact Or.inl hn
    · simp at hn
      subst hn
      exact Or.inr (progressFlagOk_stateN _ _)
  cases op with
  | setChunksOp cs =>
    simp only [stepOp]
    unfold setChunks
    dsimp only
    exact bsOk_emitIndex _ (by exact hbs)
  | updateSettingsOp p =>
    simp only [stepOp]
    unfold updateSettings
    dsimp only
    repeat' split
    all_goals first
      | exact bsOk_restartCurrent _ _ (by exact hbs)
      | exact ⟨by exact hbs, fun n hn => Or.inl hn⟩
  | playOp si =>
    simp only [stepOp]
    unfold play
    rcases si with _ | i <;> dsimp only <;> split
    · exact bsOk_resume _ (by exact hbs)
    · split
      · exact ⟨by exact hbs, fun n hn => Or.inl hn⟩
      · refine bsOk_chain speakCurrent (fun n hn => hstateN _ _ n (by exact hn))
          (bsOk_speakCurrent _ (by exact hbs))
    · exact bsOk_resume _ (by exact hbs)
    · split
      · exact ⟨by exact hbs, fun n hn => Or.inl hn⟩
      · refine bsOk_chain speakCurrent (fun n hn => hstateN _ _ n (by exact hn))
          (bsOk_speakCurrent _ (by exact hbs))
  | pauseOp =>
    exact bsOk_pause _ hbs
  | resumeOp =>
    exact bsOk_resume _ hbs
  | stopOp =>
    simp only [stepOp]
    refine ⟨by rw [stop_q_boundarySupported]; exact hbs, fun n hn => ?_⟩
    rw [stop_notices] at hn
    exact hstateN _ _ n hn
  | nextOp =>
    simp only [stepOp]
    unfold next
    split
    · exact ⟨hbs, fun n hn => Or.inl hn⟩
    · dsimp only
      split
      · exact bsOk_speakCurrent _ (by exact hbs)
      · exact bsOk_emitIndex _ (by exact hbs)
  | prevOp =>
    simp only [stepOp]
    unfold prev
    split
    · exact ⟨hbs, fun n hn => Or.inl hn⟩
    · dsimp only
      split
      · exact bsOk_speakCurrent _ (by exact hbs)
      · exact bsOk_emitIndex _ (by exact hbs)
  | seekOp i d =>
    simp only [stepOp]
    unfold seek
    split
    · exact ⟨hbs, fun n hn => Or.inl hn⟩
    · dsimp only
      split
      · refine bsOk_chain speakCurrent (fun n hn => hstateN _ _ n (by exact hn))
          (bsOk_speakCurrent _ (by exact hbs))
      · split
        · refine bsOk_emitIndex_pause _ ?_
          exact hbs
        · exact bsOk_emitIndex _ (by exact hbs)
  | deliverEndOp uid =>
    simp only [stepOp]
    rcases hfu : findUtt w uid with _ | u
    · unfold deliverEnd
      rw [hfu]
      exact ⟨hbs, fun n hn => Or.inl hn⟩
    · rw [deliverEnd_eq hfu]
      split
      · unfold onendBody
        split
        · exact ⟨hbs, fun n hn => Or.inl hn⟩
        · refine bsOk_autoAdvance _ ?_
          exact hbs
      · exact ⟨hbs, fun n hn => Or.inl hn⟩
  | deliverErrorOp uid =>
    simp only [stepOp]
    rcases hfu : findUtt w uid with _ | u
    · unfold deliverError
      rw [hfu]
      exact ⟨hbs, fun n hn => Or.inl hn⟩
    · rw [deliverError_eq hfu]
      split
      · unfold onerrorBody
        split
        · exact bsOk_speakCurrent _ (by exact hbs)
        · refine bsOk_chain autoAdvance (fun n hn => ?_)
            (bsOk_autoAdvance _ (by exact hbs))
          rcases List.mem_append.mp (by exact hn) with hn2 | hn2
          · exact Or.inl hn2
          · simp at hn2
            subst hn2
            exact Or.inr (progressFlagOk_errorN _)
      · exact ⟨hbs, fun n hn => Or.inl hn⟩
  | deliverBoundaryOp uid ci =>
    simp only [stepOp]
    rcases hfu : findUtt w uid with _ | u
    · unfold deliverBoundary
      rw [hfu]
      exact ⟨hbs, fun n hn => Or.inl hn⟩
    · rw [deliverBoundary_eq hfu]
      split
      · unfold onboundaryBody
        refine ⟨rfl, fun n hn => ?_⟩
        unfold emitProgress at hn
        simp only at hn
        rcases List.mem_append.mp hn with hn | hn
        · exact Or.inl hn
        · simp at hn
          subst hn
          exact Or.inr (fun i t cl co b hb => by cases hb; rfl)
      · exact ⟨hbs, fun n hn => Or.inl hn⟩
/-- Claim C9.  `boundarySupported` is monotone over the lifetime of a
controller: it starts `false` at construction; delivering a boundary event
to an utterance with an attached `onboundary` callback sets it `true`; and
once `true`, no operation — method call or event delivery — ever resets it,
so every subsequent progress notification reports
`boundarySupported = true`. -/
theorem claim_C9 :
    (∀ (cs : List (List Char)) (sp : SpeakPatch),
      (initWorld cs sp).q.boundarySupported = false) ∧
    (∀ (op : Op) (w : World), w.q.boundarySupported = true →
      (stepOp op w).q.boundarySupported = true ∧
      ∀ n ∈ (stepOp op w).notices, n ∈ w.notices ∨ progressFlagOk true n) ∧
    (∀ (w : World) (uid ci : Nat) (u : UttRec), findUtt w uid = some u →
      u.onboundaryAttached = true →
      (deliverBoundary uid ci w).q.boundarySupported = true) := by
  refine ⟨fun cs sp => rfl, stepOp_bsOk, ?_⟩
  intro w uid ci u hf ha
  rw [deliverBoundary_eq hf, if_pos ha]
  rfl

/-- The world of claim C9's witness: a boundary event has been observed. -/
def c9World : World :=
  deliverBoundary 0 4 (play none (setChunks ["abcdefgh".toList] (initWorld [] {})))

/-- Witness for C9: after the first boundary event the flag is `true`, and a
subsequent `pause` keeps it `true`. -/
theorem claim_C9_witness :
    (initWorld ["abcdefgh".toList] {}).q.boundarySupported = false ∧
    (deliverBoundary 0 4 (play none
      (setChunks ["abcdefgh".toList] (initWorld [] {})))).q.boundarySupported
      = true ∧
    (stepOp Op.pauseOp c9World).q.boundarySupported = true :=
  ⟨claim_C9.1 ["abcdefgh".toList] {},
   claim_C9.2.2 (play none (setChunks ["abcdefgh".toList] (initWorld [] {})))
     0 4 ⟨0, true, true, true⟩ (by decide) rfl,
   (claim_C9.2.1 Op.pauseOp c9World (by decide)).1⟩
end TTS
